import Mathlib

/-!
Verification of the libudev device scanner.

The development shallowly embeds the scanner of scanner.go: the filesystem
walk over a devices root, the per-device enrichment from attribute files,
the uevent marker file, the dev file and the runtime database, the tree
linking pass, and the rule matcher.  Filesystems are modelled as static
finite trees; a file whose content is absent models a file that exists but
cannot be opened or read, and a directory whose listing is absent models a
directory that cannot be listed.
-/

set_option autoImplicit false

namespace Libudev

/-! ## Character level string operations (Go strings package) -/

/-- Model of strings.Split limited to a single separator character,
operating on the character list of a string. -/
def splitChars (c : Char) : List Char → List (List Char)
  | [] => [[]]
  | x :: xs =>
    let r := splitChars c xs
    if x = c then [] :: r else (x :: r.headD []) :: r.tail

/-- Interleave a separator character between segments, the inverse of
splitChars on its image. -/
def joinChars (c : Char) : List (List Char) → List Char
  | [] => []
  | [x] => x
  | x :: y :: t => x ++ c :: joinChars c (y :: t)

/-- Model of strings.TrimSuffix on character lists. -/
def trimSuffixChars (s suf : List Char) : List Char :=
  if suf.isSuffixOf s then s.take (s.length - suf.length) else s

/-- Model of strings.Cut on character lists: split at the first occurrence
of the separator, or none when the separator does not occur. -/
def cutChars (c : Char) : List Char → Option (List Char × List Char)
  | [] => none
  | x :: xs =>
    if x = c then some ([], xs)
    else (cutChars c xs).map (fun p => (x :: p.1, p.2))

/-- The cutset used by the scanner when trimming file contents. -/
def isTrimChar (c : Char) : Bool :=
  c = '\n' || c = '\r' || c = '\t' || c = ' '

/-- Model of strings.Trim with the cutset of newline, carriage return, tab
and space. -/
def trimChars (l : List Char) : List Char :=
  ((l.dropWhile isTrimChar).reverse.dropWhile isTrimChar).reverse

/-! ## String level wrappers -/

/-- strings.Split on the path separator. -/
def goSplit (s : String) : List String :=
  (splitChars '/' s.data).map String.mk

/-- strings.TrimSuffix. -/
def goTrimSuffix (s suf : String) : String :=
  String.mk (trimSuffixChars s.data suf.data)

/-- strings.Cut. -/
def goCut (c : Char) (s : String) : Option (String × String) :=
  (cutChars c s.data).map (fun p => (String.mk p.1, String.mk p.2))

/-- strings.Trim with the scanner cutset. -/
def goTrim (s : String) : String :=
  String.mk (trimChars s.data)

/-- Take the first n bytes of a string, the effect of an io.LimitReader. -/
def strTake (n : Nat) (s : String) : String :=
  String.mk (s.data.take n)

/-- The lines produced by a bufio.Scanner over the given content: split on
newline, drop the trailing empty token produced by a final newline, and
strip one trailing carriage return from each line. -/
def goLines (s : String) : List String :=
  if s.data = [] then []
  else
    let parts := splitChars '\n' s.data
    let parts := if s.data.getLast? = some '\n' then parts.dropLast else parts
    parts.map (fun l =>
      String.mk (if l.getLast? = some '\r' then l.dropLast else l))

/-! ## Association list model of Go maps -/

/-- Association list standing in for a Go map from string to string. -/
abbrev Smap := List (String × String)

/-- Go map assignment: overwrite the binding when the key is present,
append a fresh binding otherwise. -/
def mapSet (m : Smap) (k v : String) : Smap :=
  if m.any (fun p => decide (p.1 = k)) then
    m.map (fun p => if p.1 = k then (p.1, v) else p)
  else m ++ [(k, v)]

/-- Go map read returning an optional value. -/
def mapGet : Smap → String → Option String
  | [], _ => none
  | (k', v) :: t, k => if k' = k then some v else mapGet t k

/-- Go map read with the zero value as default, as in an expression of the
form m[k] == v. -/
def mapGetD (m : Smap) (k : String) : String :=
  (mapGet m k).getD ""

/-! ## Data model (types/device.go) -/

/-- The Device structure of types/device.go.  Parent and Children store
the Devpath keys of the referenced devices: Devpath is the primary key of
the scan result, so the key based representation carries the same
information as the pointer based one. -/
structure Device where
  Devpath : String
  Env : Smap
  Attrs : Smap
  Tags : List String
  UsecInitialized : String
  VendorID : String
  ProductID : String
  Parent : Option String
  Children : List String
deriving DecidableEq, Repr

/-- A freshly discovered device as created in the walk callback of
ScanDevices: only Devpath and Attrs carry data, every other field holds
the Go zero value. -/
def mkDev (devpath : String) (attrs : Smap) : Device :=
  { Devpath := devpath
    Env := []
    Attrs := attrs
    Tags := []
    UsecInitialized := ""
    VendorID := ""
    ProductID := ""
    Parent := none
    Children := [] }

/-! ## Filesystem model -/

/-- A static snapshot of a filesystem tree.  A file content of none models
a file that exists but cannot be opened or read.  A directory is either
dirUnreadable, modelling a directory whose listing cannot be read, or a
chain of dirCons cells ending in dirNil, holding the listing in order:
the chain shape avoids nested recursion so that every function over the
tree is structurally recursive and computable by the kernel. -/
inductive FsEntry where
  | file (content : Option String)
  | dirUnreadable
  | dirNil
  | dirCons (name : String) (child rest : FsEntry)
deriving DecidableEq, Repr

/-- Build a directory entry from an ordered listing. -/
def fsDir (l : List (String × FsEntry)) : FsEntry :=
  l.foldr (fun p r => .dirCons p.1 p.2 r) .dirNil

/-- Resolve a path, given as a list of names, from a root entry.  A lookup
that runs into a file, an unreadable directory or a missing name yields
none, which the scanner treats as non-existence. -/
def resolve : FsEntry → List String → Option FsEntry
  | e, [] => some e
  | .dirCons n' e' r, n :: rest =>
    if n' = n then resolve e' rest else resolve r (n :: rest)
  | _, _ => none

/-- The path string of a walk position, matching the path strings that
fs.WalkDir hands to the callback: the empty position is the root ".",
otherwise the names joined by the separator. -/
def pathString : List String → String
  | [] => "."
  | l => String.mk (joinChars '/' (l.map String.data))

/-- A directory entry name the Go fs layer could actually produce:
nonempty, not the current directory name, and free of separators. -/
def validName (n : String) : Bool :=
  decide (n ≠ "") && decide (n ≠ ".") && !(n.data.contains '/')

/-- Bool valued key uniqueness of an association list. -/
def nodupKeysB {α : Type} : List (String × α) → Bool
  | [] => true
  | (k, _) :: t => !(t.any (fun p => decide (p.1 = k))) && nodupKeysB t

/-- Whether a directory chain contains an entry of the given name. -/
def containsName : FsEntry → String → Bool
  | .dirCons n _ r, k => decide (n = k) || containsName r k
  | _, _ => false

/-- Whether an entry is a legal continuation of a directory chain: only
another cell or the end of the chain. -/
def spineTail : FsEntry → Bool
  | .file _ => false
  | .dirUnreadable => false
  | _ => true

/-- Well-formedness of a filesystem snapshot: every listing in the tree
has valid, pairwise distinct names and a properly terminated chain. -/
def wfE : FsEntry → Bool
  | .file _ => true
  | .dirUnreadable => true
  | .dirNil => true
  | .dirCons n e r =>
    validName n && !(containsName r n) && spineTail r && wfE e && wfE r

/-! ## Scanner (scanner.go)

Errors carry no payload in the embedding: an error value stands for any
non-nil Go error that is not absorbed at the point it arises. -/

/-- The only size ceiling in the scanner, applied to the dev file read. -/
def maxDevSize : Nat := 128 * 1024

/-- The loop of readAttrs over the listing of the device directory: skip
subdirectories, the uevent marker and the reserved descriptors entry, skip
entries that cannot be read, and store every other content trimmed under
the entry name. -/
def attrsFold : FsEntry → Smap → Smap
  | .dirCons n e r, acc =>
    attrsFold r
      (match e with
       | .file c =>
         if n = "uevent" ∨ n = "descriptors" then acc
         else
           match c with
           | none => acc
           | some data => mapSet acc n (goTrim data)
       | _ => acc)
  | _, acc => acc

/-- readAttrs of scanner.go: list the device directory and fold its
entries into an attribute map.  A directory that cannot be listed is an
error. -/
def readAttrs (root : FsEntry) (dir : List String) : Except Unit Smap :=
  match resolve root dir with
  | some (.file _) => .error ()
  | some .dirUnreadable => .error ()
  | some l => .ok (attrsFold l [])
  | none => .error ()

/-- One line of the uevent marker file: split on the first equals sign,
ignore the line when there is none, otherwise assign the value to the key
in Env. -/
def envLine (e : Smap) (line : String) : Smap :=
  match goCut '=' line with
  | none => e
  | some (k, v) => mapSet e k v

/-- The loop of readUeventFile over the scanned lines of the marker
content. -/
def envMerge (e : Smap) (content : String) : Smap :=
  (goLines content).foldl envLine e

/-- readDevFile of scanner.go: absence yields an empty string without
error, a readable file yields its content capped at maxDevSize and
trimmed, any other condition is an error. -/
def readDevFile (root : FsEntry) (p : List String) : Except Unit String :=
  match resolve root p with
  | none => .ok ""
  | some (.file none) => .error ()
  | some (.file (some c)) => .ok (goTrim (strTake maxDevSize c))
  | some _ => .error ()

/-- One line of a runtime database record, as consumed by the loop of
readUdevInfo: an I value overwrites UsecInitialized, a G value is appended
to Tags, an E value of the shape key equals value is assigned in Env, and
anything else is ignored. -/
def udevLine (d : Device) (line : String) : Device :=
  match goCut ':' line with
  | none => d
  | some (k, v) =>
    if k = "I" then { d with UsecInitialized := v }
    else if k = "G" then { d with Tags := d.Tags ++ [v] }
    else if k = "E" then
      match goCut '=' v with
      | none => d
      | some (ck, cv) => { d with Env := mapSet d.Env ck cv }
    else d

/-- The loop of readUdevInfo over the scanned lines of a record. -/
def udevMerge (d : Device) (content : String) : Device :=
  (goLines content).foldl udevLine d

/-- readUdevInfo of scanner.go: look the record up under the key built by
prefixing the character device marker c to the major:minor string; a
missing record leaves the device unchanged, an unreadable one is an
error, a readable one is merged line by line. -/
def readUdevInfo (udev : FsEntry) (devString : String) (d : Device) :
    Except Unit Device :=
  match resolve udev [String.mk ('c' :: devString.data)] with
  | none => .ok d
  | some (.file none) => .error ()
  | some (.file (some content)) => .ok (udevMerge d content)
  | some _ => .error ()

/-- readUeventFile of scanner.go, with p the path of the marker file: a
missing marker leaves the device unchanged, an unreadable one is an
error; otherwise the marker lines are merged into Env, the sibling dev
file is resolved and the runtime database record merged. -/
def readUeventFile (root udev : FsEntry) (p : List String) (d : Device) :
    Except Unit Device :=
  match resolve root p with
  | none => .ok d
  | some (.file none) => .error ()
  | some (.file (some content)) =>
    let d := { d with Env := envMerge d.Env content }
    match readDevFile root (p.dropLast ++ ["dev"]) with
    | .error e => .error e
    | .ok devString => readUdevInfo udev devString d
  | some _ => .error ()

/-- Membership test of the devices map, modelling the map lookup in the
tree building loop. -/
def containsKey (m : List (String × Device)) (k : String) : Bool :=
  m.any (fun p => decide (p.1 = k))

/-- Go map assignment for the devices map. -/
def mapInsertDev (m : List (String × Device)) (k : String) (v : Device) :
    List (String × Device) :=
  if m.any (fun p => decide (p.1 = k)) then
    m.map (fun p => if p.1 = k then (p.1, v) else p)
  else m ++ [(k, v)]

/-- The walk callback body of ScanDevices for a file named uevent at the
given path: an error from readAttrs aborts the whole walk, an error from
readUeventFile drops the device but continues, success stores the device
in the map under its Devpath.  Caveat: the callback at scanner.go:82
calls a two argument readAttrs(dir, device) whose body is absent from the
source snapshot, which defines only the one argument readAttrs(path)
embedded here; any device field writes the absent body performs besides
filling Attrs (the repository test scanner_test.go:213-217 expects it to
populate VendorID and ProductID) are therefore not modelled. -/
def processUevent (root udev : FsEntry) (segs : List String)
    (m : List (String × Device)) : Except Unit (List (String × Device)) :=
  match readAttrs root segs.dropLast with
  | .error e => .error e
  | .ok attrs =>
    match readUeventFile root udev segs (mkDev (pathString segs.dropLast) attrs) with
    | .error _ => .ok m
    | .ok dev => .ok (mapInsertDev m dev.Devpath dev)

/-- The fs.WalkDir traversal of ScanDevices: entries are visited depth
first in listing order, exactly the order of fs.WalkDir.  The callback is
a no-op on directories; a directory whose listing cannot be read is
skipped with its whole subtree, matching the callback absorbing the error
fs.WalkDir reports for it.  The only error that can escape is the one the
callback propagates from readAttrs. -/
def walkE (root udev : FsEntry) :
    List String → String → FsEntry → List (String × Device) →
    Except Unit (List (String × Device))
  | segs, name, .file _, m =>
    if name = "uevent" then processUevent root udev segs m else .ok m
  | _, _, .dirUnreadable, m => .ok m
  | _, _, .dirNil, m => .ok m
  | segs, name, .dirCons n e r, m =>
    match walkE root udev (segs ++ [n]) n e m with
    | .error er => .error er
    | .ok m' => walkE root udev segs name r m'

/-- The whole walk of ScanDevices, starting the traversal at the root
with the path and name fs.WalkDir uses for it. -/
def walkTop (root udev : FsEntry) : Except Unit (List (String × Device)) :=
  walkE root udev [] "." root []

/-- The inner loop of the tree building pass of ScanDevices: repeatedly
strip the last path segment with TrimSuffix and return the first stripped
candidate that is a key of the devices map. -/
def floop (present : String → Bool) : String → List String → Option String
  | _, [] => none
  | dp, p :: rest =>
    let c := goTrimSuffix dp (String.mk ('/' :: p.data))
    if present c then some c else floop present c rest

/-- The parent search of the tree building pass for one device path:
iterate over the split segments from last to first. -/
def findParent (present : String → Bool) (dp : String) : Option String :=
  floop present dp (goSplit dp).reverse

/-- The Children field a device with the given key ends up with after the
tree building pass: all devices whose parent search lands on this key, in
map order. -/
def childrenOf (m : List (String × Device)) (k : String) : List String :=
  (m.filter (fun kv =>
    decide (findParent (containsKey m) kv.1 = some k))).map (fun kv => kv.1)

/-- The tree building pass of ScanDevices over the devices map. -/
def linkTree (m : List (String × Device)) : List Device :=
  m.map (fun kv =>
    { kv.2 with
      Parent := findParent (containsKey m) kv.1
      Children := childrenOf m kv.1 })

/-- ScanDevices of scanner.go: walk the devices root collecting devices,
then build the tree and return the flat device collection. -/
def scanDevices (root udev : FsEntry) : Except Unit (List Device) :=
  match walkTop root udev with
  | .error e => .error e
  | .ok m => .ok (linkTree m)

/-! ## Matcher

The matcher package is not part of the scanned sources; it is modelled
from the specification. -/

/-- Modelled from the spec: a predicate rule of the matcher package,
either an attribute equality or an environment equality; the comparison
reads the Go map with the zero value as default. -/
inductive Rule where
  | attrEq (key value : String)
  | envEq (key value : String)
deriving DecidableEq, Repr

/-- Modelled from the spec: evaluation of one rule against a device. -/
def ruleMatch (d : Device) : Rule → Bool
  | .attrEq k v => mapGetD d.Attrs k == v
  | .envEq k v => mapGetD d.Env k == v

/-- Modelled from the spec: the AND and OR combination strategies. -/
inductive Strategy where
  | all
  | any
deriving DecidableEq, Repr

/-- Modelled from the spec: a matcher is an ordered rule collection with a
combination strategy. -/
structure Matcher where
  rules : List Rule
  strategy : Strategy
deriving DecidableEq, Repr

/-- Modelled from the spec: the combined predicate of a matcher. -/
def matchDevice (m : Matcher) (d : Device) : Bool :=
  match m.strategy with
  | .all => m.rules.all (ruleMatch d)
  | .any => m.rules.any (ruleMatch d)

/-- Modelled from the spec: ScanDevices of a scanner configured with an
optional matcher (options.go, WithMatcher: only devices matching the rules
are returned).  The body applying the matcher inside ScanDevices is not
among the scanned sources; the model filters the scan result with the
combined predicate. -/
def scanDevicesM (root udev : FsEntry) (m : Option Matcher) :
    Except Unit (List Device) :=
  match scanDevices root udev with
  | .error e => .error e
  | .ok ds =>
    match m with
    | none => .ok ds
    | some mt => .ok (ds.filter (matchDevice mt))

/-! ## Fixtures -/

/-- A devices root whose single device sits directly below the root. -/
def fsTop : FsEntry :=
  fsDir ([("a", fsDir ([("uevent", .file (some ""))]))])

/-- An empty runtime database root. -/
def udevEmpty : FsEntry := fsDir ([])

/-- A devices root with one device directory holding a marker and a single
attribute file with the given content. -/
def attrFixture (c : String) : FsEntry :=
  fsDir ([("d", fsDir (
    [("uevent", .file (some "")), ("attr1", .file (some c))]))])

/-- A devices root with unreadable entries next to a readable device: an
unlistable directory, an unreadable file, a device directory whose marker
cannot be read, and a nested readable device. -/
def mixedFixture : FsEntry :=
  fsDir (
    [("broken", .dirUnreadable),
     ("junk", .file none),
     ("bad", fsDir ([("uevent", .file none)])),
     ("bus", fsDir (
       [("dev0", fsDir (
         [("uevent", .file (some "K=V")),
          ("attr", .file none)]))]))])

/-- Modelled from the spec: the demo fixture tree of the end-to-end
scenarios (the packaged fixture archive is not among the scanned
sources).  Eleven directories carry a marker file; three of them are
optical mouse devices whose runtime database records carry the encoded
model name. -/
def demoFix : FsEntry :=
  fsDir (
    [("pci0000:00", fsDir (
      [("usb1", fsDir (
        [("uevent", .file (some "DEVTYPE=usb_device")),
         ("1-1", fsDir (
           [("uevent", .file (some "DEVTYPE=usb_device")),
            ("1-1:1.0", fsDir (
              [("uevent", .file (some "DEVTYPE=usb_interface")),
               ("mouse0", fsDir (
                 [("uevent", .file (some "MAJOR=13\nMINOR=32")),
                  ("dev", .file (some "13:32\n"))]))]))]))])),
       ("usb2", fsDir (
         [("uevent", .file (some "DEVTYPE=usb_device")),
          ("2-1", fsDir (
            [("uevent", .file (some "DEVTYPE=usb_device")),
             ("idProduct", .file (some "0024\n")),
             ("dev", .file (some "189:133\n")),
             ("2-1:1.0", fsDir (
               [("uevent", .file (some "DEVNAME=usb/lp0")),
                ("mouse1", fsDir (
                  [("uevent", .file (some "MAJOR=13\nMINOR=33")),
                   ("dev", .file (some "13:33\n"))]))]))]))])),
       ("descriptors", .file (some "binaryblob"))])),
     ("platform", fsDir (
       [("serial8250", fsDir (
         [("uevent", .file (some "DRIVER=serial8250")),
          ("mouse2", fsDir (
            [("uevent", .file (some "MAJOR=13\nMINOR=34")),
             ("dev", .file (some "13:34\n"))]))]))])),
     ("virtual", fsDir (
       [("input", fsDir (
         [("input5", fsDir (
           [("uevent", .file (some "NAME=kbd"))]))]))]))])

/-- Modelled from the spec: the runtime database accompanying the demo
fixture. -/
def demoUdev : FsEntry :=
  fsDir (
    [("c13:32", .file (some
      "I:1000\nG:mouse\nE:ID_MODEL=USB_Optical_Mouse\nE:ID_MODEL_ENC=USB\\x20Optical\\x20Mouse\n")),
     ("c13:33", .file (some
      "G:mouse\nE:ID_MODEL=USB_Optical_Mouse\nE:ID_MODEL_ENC=USB\\x20Optical\\x20Mouse\n")),
     ("c13:34", .file (some
      "G:mouse\nE:ID_MODEL=USB_Optical_Mouse\nE:ID_MODEL_ENC=USB\\x20Optical\\x20Mouse\n")),
     ("c189:133", .file (some "E:ID_USB_DRIVER=usblp\n"))])

/-- Modelled from the spec: the matcher of the optical mouse end-to-end
scenario, a single environment equality rule. -/
def mouseMatcher : Matcher :=
  { rules := [.envEq "ID_MODEL_ENC" "USB\\x20Optical\\x20Mouse"]
    strategy := .all }

/-! ## Derived notions used by the statements -/

/-- Equality test on Except values, used to state concrete evaluations. -/
instance {ε α : Type} [DecidableEq ε] [DecidableEq α] : DecidableEq (Except ε α) := fun a b =>
  match a, b with
  | .error e, .error f =>
    if h : e = f then .isTrue (by rw [h]) else .isFalse (fun hh => h (Except.error.inj hh))
  | .error _, .ok _ => .isFalse (fun h => Except.noConfusion h)
  | .ok _, .error _ => .isFalse (fun h => Except.noConfusion h)
  | .ok x, .ok y =>
    if h : x = y then .isTrue (by rw [h]) else .isFalse (fun hh => h (Except.ok.inj hh))

/-- Join path segments with the separator. -/
def joinStrs (l : List String) : String :=
  String.mk (joinChars '/' (l.map String.data))

/-- The depth of a device path: its number of separated segments. -/
def pathDepth (dp : String) : Nat :=
  (goSplit dp).length

/-- Look a device up in a scan result by its Devpath. -/
def devLookup (ds : List Device) (dp : String) : Option Device :=
  ds.find? (fun d => decide (d.Devpath = dp))

/-- The parent relation of a scan result, as a partial function on device
paths. -/
def parentFun (ds : List Device) (dp : String) : Option String :=
  (devLookup ds dp).bind (fun d => d.Parent)

/-- Whether following the parent function from a starting path reaches,
within the given number of steps, a path with no parent or a path that is
its own parent. -/
def stops (f : String → Option String) : Nat → String → Bool
  | 0, _ => false
  | k + 1, dp =>
    match f dp with
    | none => true
    | some p => decide (p = dp) || stops f k p

/-- The reference search the tree building loop is compared against: for
a single segment the device path itself is the only candidate; otherwise
try the joins of the proper nonempty segment lists from longest to
shortest. -/
def specSearch (present : String → Bool) (segs : List String) :
    Option String :=
  match segs with
  | [] => none
  | [p] => if present p then some p else none
  | a :: b :: t =>
    let c := joinStrs (a :: b :: t).dropLast
    if present c then some c else specSearch present ((a :: b :: t).dropLast)
termination_by segs.length
decreasing_by
  simp [List.length_dropLast]

/-- An attribute content one character longer than the size ceiling. -/
def bigContent : String :=
  String.mk (List.replicate (maxDevSize + 1) 'a')

/-- The single device produced by scanning fsTop: the tree building pass
links it to itself. -/
def devA : Device :=
  { Devpath := "a"
    Env := []
    Attrs := []
    Tags := []
    UsecInitialized := ""
    VendorID := ""
    ProductID := ""
    Parent := some "a"
    Children := ["a"] }

/-- The single device produced by scanning attrFixture with the given
attribute content. -/
def devAttr (c : String) : Device :=
  { Devpath := "d"
    Env := []
    Attrs := [("attr1", goTrim c)]
    Tags := []
    UsecInitialized := ""
    VendorID := ""
    ProductID := ""
    Parent := some "d"
    Children := ["d"] }

/-- The listing cells of a directory chain, in order. -/
def SpineCells : FsEntry → List (String × FsEntry)
  | .dirCons n e r => (n, e) :: SpineCells r
  | _ => []

/-- The invariant of every entry the devices map can hold: the value is
keyed by its own Devpath and its VendorID and ProductID fields hold the
zero value. -/
def goodPair (kv : String × Device) : Prop :=
  kv.2.Devpath = kv.1 ∧ kv.2.VendorID = "" ∧ kv.2.ProductID = ""

/-- The invariant carried through the walk: a visited marker file is what
the path resolves to, every pending listing cell resolves at its own
path and is well-formed, and all names on the current path are valid. -/
def WalkInv (root : FsEntry) (segs : List String) (name : String)
    (cur : FsEntry) : Prop :=
  (∀ c, name = "uevent" → cur = .file c →
    resolve root segs = some (.file c) ∧ ∃ pre, segs = pre ++ [name]) ∧
  (∀ p ∈ SpineCells cur,
    resolve root (segs ++ [p.1]) = some p.2 ∧ wfE p.2 = true ∧
      validName p.1 = true) ∧
  (∀ n ∈ segs, validName n = true) ∧
  wfE cur = true

/-- A devices root with a nested device below a top level device. -/
def fsNest : FsEntry :=
  fsDir [("a", fsDir
    [("uevent", .file (some "")),
     ("b", fsDir [("uevent", .file (some ""))])])]

/-- The top level device of fsNest after linking. -/
def devNestA : Device :=
  { Devpath := "a"
    Env := []
    Attrs := []
    Tags := []
    UsecInitialized := ""
    VendorID := ""
    ProductID := ""
    Parent := some "a"
    Children := ["a", "a/b"] }

/-- The nested device of fsNest after linking. -/
def devNestAB : Device :=
  { Devpath := "a/b"
    Env := []
    Attrs := []
    Tags := []
    UsecInitialized := ""
    VendorID := ""
    ProductID := ""
    Parent := some "a"
    Children := [] }

/-! ## Lemmas about the string primitives -/

theorem mk_data (s : String) : String.mk s.data = s := rfl

theorem cutChars_of_not_mem {c : Char} {l : List Char} (h : c ∉ l) :
    cutChars c l = none := by
  induction l with
  | nil => rfl
  | cons x xs ih =>
    have hx : ¬ x = c := fun he => h (he ▸ List.mem_cons_self x xs)
    have hxs : c ∉ xs := fun hm => h (List.mem_cons_of_mem x hm)
    simp [cutChars, hx, ih hxs]

theorem cutChars_append {c : Char} {l r : List Char} (h : c ∉ l) :
    cutChars c (l ++ c :: r) = some (l, r) := by
  induction l with
  | nil => simp [cutChars]
  | cons x xs ih =>
    have hx : ¬ x = c := fun he => h (he ▸ List.mem_cons_self x xs)
    have hxs : c ∉ xs := fun hm => h (List.mem_cons_of_mem x hm)
    simp [cutChars, hx, ih hxs]

theorem data_append_sep (c : Char) (k v : String) :
    (k ++ String.mk [c] ++ v).data = k.data ++ c :: v.data := by
  simp [String.data_append]

theorem goCut_of_not_mem {c : Char} {s : String} (h : c ∉ s.data) :
    goCut c s = none := by
  simp [goCut, cutChars_of_not_mem h]

theorem goCut_first {c : Char} {s : String} {a b : List Char}
    (hs : s.data = a ++ c :: b) (ha : c ∉ a) :
    goCut c s = some (String.mk a, String.mk b) := by
  simp [goCut, hs, cutChars_append ha]

/-! ## Lemmas about the map model -/

theorem mapGet_overwrite {m : Smap} {k : String} (v : String)
    (h : m.any (fun p => decide (p.1 = k)) = true) :
    mapGet (m.map (fun p => if p.1 = k then (p.1, v) else p)) k = some v := by
  induction m with
  | nil => simp at h
  | cons hd t ih =>
    rcases hd with ⟨k', w⟩
    simp only [List.map_cons]
    by_cases hk : k' = k
    · subst hk
      rw [if_pos rfl]
      simp [mapGet]
    · have h' : (t.any fun p => decide (p.1 = k)) = true := by
        simp only [List.any_cons] at h
        cases hor : decide (k' = k) with
        | true => exact absurd (of_decide_eq_true hor) hk
        | false => rw [hor, Bool.false_or] at h; exact h
      rw [if_neg hk]
      simp only [mapGet]
      rw [if_neg hk]
      exact ih h'

theorem mapGet_append_single {m : Smap} {k : String} (v : String)
    (h : m.any (fun p => decide (p.1 = k)) = false) :
    mapGet (m ++ [(k, v)]) k = some v := by
  induction m with
  | nil => simp [mapGet]
  | cons hd t ih =>
    rcases hd with ⟨k', w⟩
    simp only [List.any_cons, Bool.or_eq_false_iff] at h
    have hne : ¬ k' = k := of_decide_eq_false h.1
    simp [mapGet, hne, ih h.2]

theorem mapGet_mapSet (m : Smap) (k v : String) :
    mapGet (mapSet m k v) k = some v := by
  by_cases h : m.any (fun p => decide (p.1 = k)) = true
  · simp [mapSet, h, mapGet_overwrite v h]
  · have h' : m.any (fun p => decide (p.1 = k)) = false := by
      revert h; cases m.any (fun p => decide (p.1 = k)) <;> simp
    simp [mapSet, h', mapGet_append_single v h']

/-! ## Line level lemmas for the marker and record parsers -/

theorem data_two_lit (a b : Char) (v : String) :
    (String.mk [a, b] ++ v).data = [a] ++ b :: v.data := by
  rw [String.data_append]
  rfl

theorem udevLine_I (d : Device) (v : String) :
    udevLine d ("I:" ++ v) = { d with UsecInitialized := v } := by
  rw [udevLine, goCut_first (data_two_lit 'I' ':' v) (by decide)]
  rfl

theorem udevLine_G (d : Device) (v : String) :
    udevLine d ("G:" ++ v) = { d with Tags := d.Tags ++ [v] } := by
  rw [udevLine, goCut_first (data_two_lit 'G' ':' v) (by decide)]
  rfl

theorem data_E_line (k v : String) :
    ("E:" ++ k ++ "=" ++ v).data = ['E'] ++ ':' :: (k.data ++ '=' :: v.data) := by
  simp [String.data_append]

theorem udevLine_E {k : String} (d : Device) (v : String)
    (hk : ('=' : Char) ∉ k.data) :
    udevLine d ("E:" ++ k ++ "=" ++ v) = { d with Env := mapSet d.Env k v } := by
  have hcut : goCut '=' (String.mk (k.data ++ '=' :: v.data)) = some (k, v) := by
    have h2 := @goCut_first '=' (String.mk (k.data ++ '=' :: v.data))
      k.data v.data rfl hk
    simpa [mk_data] using h2
  rw [udevLine, goCut_first (data_E_line k v) (by decide)]
  simp [hcut]

theorem udevLine_no_colon (d : Device) (line : String)
    (h : (':' : Char) ∉ line.data) : udevLine d line = d := by
  rw [udevLine, goCut_of_not_mem h]


theorem udevLine_E_no_eq (d : Device) (v : String)
    (hv : ('=' : Char) ∉ v.data) : udevLine d ("E:" ++ v) = d := by
  have hcut : goCut '=' (String.mk v.data) = none := goCut_of_not_mem hv
  rw [udevLine, goCut_first (data_two_lit 'E' ':' v) (by decide)]
  simp [hcut]

theorem envLine_no_eq (e : Smap) (line : String)
    (h : ('=' : Char) ∉ line.data) : envLine e line = e := by
  rw [envLine, goCut_of_not_mem h]

theorem envLine_eq {k : String} (e : Smap) (v : String)
    (hk : ('=' : Char) ∉ k.data) :
    envLine e (k ++ "=" ++ v) = mapSet e k v := by
  have hd : (k ++ "=" ++ v).data = k.data ++ '=' :: v.data := by
    simp [String.data_append]
  rw [envLine, goCut_first hd hk]

/-! ## Claims C4 and C5: record and marker parsing -/

/-- C4: for a resolved major:minor string the runtime database record is
looked up under the key prefixed with the character c; a missing record
leaves the device unchanged without error; a present record is merged
line by line, where an I line overwrites UsecInitialized, a G line
appends to Tags in encounter order, an E line with an equals sign assigns
in Env overwriting any existing binding, and malformed lines without a
colon, or E lines without an equals sign, are ignored. -/
theorem udev_record_merge :
    (∀ (udev : FsEntry) (s : String) (d : Device),
      resolve udev [String.mk ('c' :: s.data)] = none →
      readUdevInfo udev s d = .ok d) ∧
    (∀ (udev : FsEntry) (s : String) (d : Device) (content : String),
      resolve udev [String.mk ('c' :: s.data)] = some (.file (some content)) →
      readUdevInfo udev s d = .ok (udevMerge d content)) ∧
    (∀ (d : Device) (v : String),
      udevLine d ("I:" ++ v) = { d with UsecInitialized := v }) ∧
    (∀ (d : Device) (v : String),
      udevLine d ("G:" ++ v) = { d with Tags := d.Tags ++ [v] }) ∧
    (∀ (d : Device) (k v : String), ('=' : Char) ∉ k.data →
      udevLine d ("E:" ++ k ++ "=" ++ v) = { d with Env := mapSet d.Env k v }) ∧
    (∀ (d : Device) (line : String), (':' : Char) ∉ line.data →
      udevLine d line = d) ∧
    (∀ (d : Device) (v : String), ('=' : Char) ∉ v.data →
      udevLine d ("E:" ++ v) = d) ∧
    (∀ (e : Smap) (k v : String), mapGet (mapSet e k v) k = some v) := by
  refine ⟨?_, ?_, ?_, ?_, ?_, ?_, ?_, ?_⟩
  · intro udev s d h
    simp [readUdevInfo, h]
  · intro udev s d content h
    simp [readUdevInfo, h]
  · exact udevLine_I
  · exact udevLine_G
  · exact fun d k v hk => udevLine_E d v hk
  · exact udevLine_no_colon
  · exact udevLine_E_no_eq
  · exact fun e k v => mapGet_mapSet e k v

/-- Witness for udev_record_merge at concrete inputs. -/
theorem udev_record_merge_witness :
    readUdevInfo udevEmpty "9:9" (mkDev "a" []) = .ok (mkDev "a" []) ∧
    udevLine (mkDev "a" []) ("I:" ++ "1000") =
      { mkDev "a" [] with UsecInitialized := "1000" } ∧
    udevLine (mkDev "a" []) ("G:" ++ "wheel") =
      { mkDev "a" [] with Tags := ["wheel"] } ∧
    udevLine (mkDev "a" []) ("E:" ++ "FOO" ++ "=" ++ "bar") =
      { mkDev "a" [] with Env := mapSet [] "FOO" "bar" } ∧
    udevLine (mkDev "a" []) "badline" = mkDev "a" [] ∧
    udevLine (mkDev "a" []) ("E:" ++ "noequals") = mkDev "a" [] := by
  refine ⟨?_, ?_, ?_, ?_, ?_, ?_⟩
  · exact udev_record_merge.1 udevEmpty "9:9" (mkDev "a" []) rfl
  · exact udev_record_merge.2.2.1 (mkDev "a" []) "1000"
  · exact udev_record_merge.2.2.2.1 (mkDev "a" []) "wheel"
  · exact udev_record_merge.2.2.2.2.1 (mkDev "a" []) "FOO" "bar" (by decide)
  · exact udev_record_merge.2.2.2.2.2.1 (mkDev "a" []) "badline" (by decide)
  · exact udev_record_merge.2.2.2.2.2.2.1 (mkDev "a" []) "noequals" (by decide)

/-- C5: marker file parsing populates Env line by line: a line with no
equals sign contributes nothing, a line is split at its first equals sign
with the whole remainder as the value so that a line of the shape A=B=C
binds A to B=C, and a repeated key keeps the value of the last
occurrence. -/
theorem marker_parsing :
    (∀ (e : Smap) (line : String), ('=' : Char) ∉ line.data →
      envLine e line = e) ∧
    (∀ (e : Smap) (k v : String), ('=' : Char) ∉ k.data →
      envLine e (k ++ "=" ++ v) = mapSet e k v) ∧
    (mapGet (envMerge [] "A=B=C") "A" = some "B=C") ∧
    (∀ (e : Smap) (k v : String), mapGet (mapSet e k v) k = some v) ∧
    (mapGet (envMerge [] "X=1\nother=5\nX=2") "X" = some "2") := by
  refine ⟨?_, ?_, ?_, ?_, ?_⟩
  · exact envLine_no_eq
  · exact fun e k v hk => envLine_eq e v hk
  · rfl
  · exact fun e k v => mapGet_mapSet e k v
  · rfl

/-- Witness for marker_parsing at concrete inputs. -/
theorem marker_parsing_witness :
    envLine [] "noequalshere" = [] ∧
    envLine [] ("A" ++ "=" ++ "B=C") = mapSet [] "A" "B=C" := by
  constructor
  · exact marker_parsing.1 [] "noequalshere" (by decide)
  · exact marker_parsing.2.1 [] "A" "B=C" (by decide)

/-! ## Claim C2 and C3 counterexamples: the self parent of single segment
device paths -/

/-- Counterexample to C2 as stated: scanning a root whose device
directory sits directly below it yields a device that is its own Parent
and appears in its own Children, a cycle of length one.  The tree
building loop strips the suffix of the single segment path, which is a
no-op, and then finds the device itself in the map. -/
theorem forest_cex :
    ∃ d : Device, scanDevices fsTop udevEmpty = .ok [d] ∧
      d.Parent = some d.Devpath ∧ d.Children = [d.Devpath] :=
  ⟨devA, rfl, rfl, rfl⟩

/-- Counterexample to C3 as stated: the device of fsTop has no ancestor
path at all, yet its Parent is set, and set to a path that is not a
strict ancestor of its own. -/
theorem nearest_ancestor_cex :
    ∃ d : Device, scanDevices fsTop udevEmpty = .ok [d] ∧
      d.Parent = some "a" ∧ d.Devpath = "a" ∧
      ¬ ∃ q r : String, d.Devpath = q ++ "/" ++ r := by
  refine ⟨devA, rfl, rfl, rfl, ?_⟩
  rintro ⟨q, r, h⟩
  have hd : (devA.Devpath).data = (q ++ "/" ++ r).data := congrArg String.data h
  rw [String.data_append, String.data_append] at hd
  rw [show (devA.Devpath).data = ['a'] from rfl] at hd
  cases hq : q.data with
  | nil => rw [hq] at hd; simp at hd
  | cons c cs => rw [hq] at hd; simp at hd

/-! ## Claim C6: matcher filtering -/

/-- C6: with a matcher configured, ScanDevices returns exactly the
devices satisfying the combined predicate; on the demo fixture the single
encoded model name rule selects exactly three devices, each carrying the
decoded model name in Env. -/
theorem matcher_filtering :
    (∀ (root udev : FsEntry) (m : Matcher) (ds : List Device) (d : Device),
      scanDevicesM root udev (some m) = .ok ds → d ∈ ds →
      matchDevice m d = true) ∧
    ((scanDevicesM demoFix demoUdev (some mouseMatcher)).map
        (fun ds => (ds.length,
          ds.all (fun d => decide (mapGetD d.Env "ID_MODEL" = "USB_Optical_Mouse"))))
      = .ok (3, true)) := by
  constructor
  · intro root udev m ds d hscan hd
    unfold scanDevicesM at hscan
    cases hbase : scanDevices root udev with
    | error e => rw [hbase] at hscan; exact absurd hscan (by simp)
    | ok base =>
      rw [hbase] at hscan
      have hds : ds = base.filter (matchDevice m) := by
        cases hscan
        rfl
      rw [hds] at hd
      exact (List.mem_filter.mp hd).2
  · rfl

/-- Witness for matcher_filtering at a concrete scan. -/
theorem matcher_filtering_witness :
    matchDevice { rules := [.attrEq "x" ""], strategy := .all } devA = true :=
  matcher_filtering.1 fsTop udevEmpty
    { rules := [.attrEq "x" ""], strategy := .all } [devA] devA rfl
    (List.mem_singleton.mpr rfl)

/-! ## Claim C7: size caps on file reads -/

theorem dropWhile_replicate_a (n : Nat) :
    List.dropWhile isTrimChar (List.replicate n 'a') = List.replicate n 'a' := by
  cases n with
  | zero => rfl
  | succ k =>
    rw [List.replicate_succ, List.dropWhile_cons]
    simp [isTrimChar]

theorem trimChars_replicate_a (n : Nat) :
    trimChars (List.replicate n 'a') = List.replicate n 'a' := by
  unfold trimChars
  rw [dropWhile_replicate_a, List.reverse_replicate, dropWhile_replicate_a,
    List.reverse_replicate]

theorem trimChars_length_le (l : List Char) :
    (trimChars l).length ≤ l.length := by
  unfold trimChars
  calc ((l.dropWhile isTrimChar).reverse.dropWhile isTrimChar).reverse.length
      = ((l.dropWhile isTrimChar).reverse.dropWhile isTrimChar).length := by
        rw [List.length_reverse]
    _ ≤ (l.dropWhile isTrimChar).reverse.length := (List.dropWhile_sublist _).length_le
    _ = (l.dropWhile isTrimChar).length := by rw [List.length_reverse]
    _ ≤ l.length := (List.dropWhile_sublist _).length_le

/-- The scan of attrFixture evaluates to the single expected device, with
the attribute value the trim of the full content, for every content. -/
theorem scan_attrFixture (c : String) :
    scanDevices (attrFixture c) udevEmpty = .ok [devAttr c] := rfl

theorem goTrim_mk (l : List Char) : (goTrim (String.mk l)).data = trimChars l := rfl

theorem strTake_mk (n : Nat) (l : List Char) :
    strTake n (String.mk l) = String.mk (l.take n) := rfl

/-- Counterexample to C7 as stated: an attribute file one character over
the ceiling is stored whole after trimming: its stored value is longer
than the ceiling and differs from the trimmed capped content the claim
prescribes. -/
theorem bounded_read_cex :
    ∃ d : Device, scanDevices (attrFixture bigContent) udevEmpty = .ok [d] ∧
      ∃ v, mapGet d.Attrs "attr1" = some v ∧
        maxDevSize < v.data.length ∧
        v ≠ goTrim (strTake maxDevSize bigContent) := by
  have hb : bigContent = String.mk (List.replicate (maxDevSize + 1) 'a') := rfl
  have h1 : (goTrim bigContent).data = List.replicate (maxDevSize + 1) 'a' := by
    rw [hb, goTrim_mk, trimChars_replicate_a]
  refine ⟨devAttr bigContent, scan_attrFixture bigContent, goTrim bigContent, ?_, ?_, ?_⟩
  · simp [devAttr, mapGet]
  · rw [h1, List.length_replicate]
    omega
  · intro he
    have h2 : (goTrim (strTake maxDevSize bigContent)).data.length ≤ maxDevSize := by
      rw [hb, strTake_mk, goTrim_mk]
      calc (trimChars ((List.replicate (maxDevSize + 1) 'a').take maxDevSize)).length
          ≤ ((List.replicate (maxDevSize + 1) 'a').take maxDevSize).length :=
            trimChars_length_le _
        _ ≤ maxDevSize := by rw [List.length_take]; omega
    have h3 := congrArg (fun s => s.data.length) he
    simp only at h3
    rw [h1, List.length_replicate] at h3
    omega

/-- C7 amended: only the dev file read is capped at maxDevSize bytes
before trimming; attribute files are read and trimmed whole, without a
cap, as the scan of attrFixture shows for contents of any size; trimming
never lengthens a value, so the dev string stays within the ceiling. -/
theorem bounded_read_amended :
    (∀ (root : FsEntry) (p : List String) (c : String),
      resolve root p = some (.file (some c)) →
      readDevFile root p = .ok (goTrim (strTake maxDevSize c))) ∧
    (∀ c : String, scanDevices (attrFixture c) udevEmpty = .ok [devAttr c]) ∧
    (∀ c : String, (goTrim (strTake maxDevSize c)).data.length ≤ maxDevSize) := by
  refine ⟨?_, ?_, ?_⟩
  · intro root p c h
    simp [readDevFile, h]
  · exact scan_attrFixture
  · intro c
    calc (goTrim (strTake maxDevSize c)).data.length
        = (trimChars (c.data.take maxDevSize)).length := rfl
      _ ≤ (c.data.take maxDevSize).length := trimChars_length_le _
      _ ≤ maxDevSize := by rw [List.length_take]; omega

/-- Witness for bounded_read_amended at a concrete dev file. -/
theorem bounded_read_amended_witness :
    readDevFile demoFix ["pci0000:00", "usb2", "2-1", "dev"] =
      .ok (goTrim (strTake maxDevSize "189:133\n")) :=
  bounded_read_amended.1 demoFix ["pci0000:00", "usb2", "2-1", "dev"]
    "189:133\n" rfl

/-! ## Field preservation through the enrichment chain -/

theorem udevLine_keeps (d : Device) (line : String) :
    (udevLine d line).Devpath = d.Devpath ∧
    (udevLine d line).VendorID = d.VendorID ∧
    (udevLine d line).ProductID = d.ProductID := by
  unfold udevLine
  cases goCut ':' line with
  | none => exact ⟨rfl, rfl, rfl⟩
  | some p =>
    rcases p with ⟨k, v⟩
    simp only []
    split_ifs <;> try exact ⟨rfl, rfl, rfl⟩
    cases goCut '=' v with
    | none => exact ⟨rfl, rfl, rfl⟩
    | some q => exact ⟨rfl, rfl, rfl⟩

theorem udevMerge_keeps (d : Device) (content : String) :
    (udevMerge d content).Devpath = d.Devpath ∧
    (udevMerge d content).VendorID = d.VendorID ∧
    (udevMerge d content).ProductID = d.ProductID := by
  unfold udevMerge
  generalize goLines content = ls
  induction ls generalizing d with
  | nil => exact ⟨rfl, rfl, rfl⟩
  | cons l t ih =>
    rw [List.foldl_cons]
    have h1 := udevLine_keeps d l
    have h2 := ih (udevLine d l)
    exact ⟨h2.1.trans h1.1, h2.2.1.trans h1.2.1, h2.2.2.trans h1.2.2⟩

theorem readUdevInfo_keeps {udev : FsEntry} {s : String} {d d' : Device}
    (h : readUdevInfo udev s d = .ok d') :
    d'.Devpath = d.Devpath ∧ d'.VendorID = d.VendorID ∧
    d'.ProductID = d.ProductID := by
  unfold readUdevInfo at h
  cases hr : resolve udev [String.mk ('c' :: s.data)] with
  | none => rw [hr] at h; cases h; exact ⟨rfl, rfl, rfl⟩
  | some e =>
    rw [hr] at h
    cases e with
    | file c =>
      cases c with
      | none => simp at h
      | some content =>
        simp only [] at h
        cases h
        exact udevMerge_keeps d content
    | dirUnreadable => simp at h
    | dirNil => simp at h
    | dirCons n e r => simp at h

theorem readUeventFile_keeps {root udev : FsEntry} {p : List String}
    {d d' : Device} (h : readUeventFile root udev p d = .ok d') :
    d'.Devpath = d.Devpath ∧ d'.VendorID = d.VendorID ∧
    d'.ProductID = d.ProductID := by
  unfold readUeventFile at h
  cases hr : resolve root p with
  | none => rw [hr] at h; cases h; exact ⟨rfl, rfl, rfl⟩
  | some e =>
    rw [hr] at h
    cases e with
    | file c =>
      cases c with
      | none => simp at h
      | some content =>
        simp only [] at h
        cases hdv : readDevFile root (p.dropLast ++ ["dev"]) with
        | error er => rw [hdv] at h; simp at h
        | ok devString =>
          rw [hdv] at h
          simp only [] at h
          have hk := readUdevInfo_keeps h
          exact ⟨hk.1, hk.2.1, hk.2.2⟩
    | dirUnreadable => simp at h
    | dirNil => simp at h
    | dirCons n e r => simp at h

/-! ## Map insertion and walk preservation -/

theorem mem_mapInsertDev {m : List (String × Device)} {k : String}
    {v : Device} {kv : String × Device} (h : kv ∈ mapInsertDev m k v) :
    kv ∈ m ∨ kv = (k, v) := by
  unfold mapInsertDev at h
  by_cases hc : (m.any fun p => decide (p.1 = k)) = true
  · rw [if_pos hc] at h
    rcases List.mem_map.mp h with ⟨p, hp, he⟩
    by_cases hpk : p.1 = k
    · right
      rw [if_pos hpk] at he
      rw [← he, hpk]
    · left
      rw [if_neg hpk] at he
      rw [← he]
      exact hp
  · rw [if_neg hc] at h
    rcases List.mem_append.mp h with h1 | h1
    · exact Or.inl h1
    · right
      simpa using h1

theorem fst_insert_ite (k : String) (v : Device) (p : String × Device) :
    ((if p.1 = k then (p.1, v) else p).1) = p.1 := by
  split <;> rfl

theorem any_keys_map (m : List (String × Device)) (k x : String)
    (v : Device) :
    ((m.map (fun p => if p.1 = k then (p.1, v) else p)).any
        (fun p => decide (p.1 = x)))
      = m.any (fun p => decide (p.1 = x)) := by
  induction m with
  | nil => rfl
  | cons p t ih =>
    simp only [List.map_cons, List.any_cons, ih, fst_insert_ite]

theorem nodupKeysB_map_keep (m : List (String × Device)) (k : String)
    (v : Device) :
    nodupKeysB (m.map (fun p => if p.1 = k then (p.1, v) else p))
      = nodupKeysB m := by
  induction m with
  | nil => rfl
  | cons p t ih =>
    rcases p with ⟨k', w⟩
    simp only [List.map_cons]
    by_cases hk : k' = k
    · subst hk
      rw [if_pos rfl]
      simp only [nodupKeysB, any_keys_map, ih]
    · rw [if_neg hk]
      simp only [nodupKeysB, any_keys_map, ih]

theorem nodupKeysB_append_single {m : List (String × Device)} {k : String}
    (v : Device) (hany : (m.any fun p => decide (p.1 = k)) = false)
    (h : nodupKeysB m = true) : nodupKeysB (m ++ [(k, v)]) = true := by
  induction m with
  | nil => simp [nodupKeysB]
  | cons p t ih =>
    rcases p with ⟨k', w⟩
    simp only [List.any_cons, Bool.or_eq_false_iff] at hany
    simp only [nodupKeysB, Bool.and_eq_true, Bool.not_eq_true'] at h
    simp only [List.cons_append, nodupKeysB, Bool.and_eq_true,
      Bool.not_eq_true']
    refine ⟨?_, ih hany.2 h.2⟩
    have hne : ¬ k' = k := of_decide_eq_false hany.1
    rw [show t.append [(k, v)] = t ++ [(k, v)] from rfl, List.any_append, h.1,
      Bool.false_or]
    simp only [List.any_cons, List.any_nil, Bool.or_false]
    simp
    intro hke
    exact absurd hke.symm hne

theorem nodupKeysB_mapInsertDev {m : List (String × Device)} {k : String}
    {v : Device} (h : nodupKeysB m = true) :
    nodupKeysB (mapInsertDev m k v) = true := by
  unfold mapInsertDev
  by_cases hc : (m.any fun p => decide (p.1 = k)) = true
  · rw [if_pos hc, nodupKeysB_map_keep]
    exact h
  · have hc' : (m.any fun p => decide (p.1 = k)) = false := by
      revert hc; cases m.any fun p => decide (p.1 = k) <;> simp
    rw [if_neg hc]
    exact nodupKeysB_append_single v hc' h

theorem processUevent_good {root udev : FsEntry} {segs : List String}
    {m M : List (String × Device)} (h : processUevent root udev segs m = .ok M)
    (hm : ∀ kv ∈ m, goodPair kv) : ∀ kv ∈ M, goodPair kv := by
  unfold processUevent at h
  cases ha : readAttrs root segs.dropLast with
  | error er => rw [ha] at h; simp at h
  | ok attrs =>
    rw [ha] at h
    simp only [] at h
    cases hre : readUeventFile root udev segs (mkDev (pathString segs.dropLast) attrs) with
    | error er => rw [hre] at h; cases h; exact hm
    | ok dev =>
      rw [hre] at h
      cases h
      intro kv hkv
      rcases mem_mapInsertDev hkv with h1 | h1
      · exact hm kv h1
      · have hk := readUeventFile_keeps hre
        rw [h1]
        exact ⟨rfl, hk.2.1, hk.2.2⟩

theorem processUevent_nodup {root udev : FsEntry} {segs : List String}
    {m M : List (String × Device)} (h : processUevent root udev segs m = .ok M)
    (hm : nodupKeysB m = true) : nodupKeysB M = true := by
  unfold processUevent at h
  cases ha : readAttrs root segs.dropLast with
  | error er => rw [ha] at h; simp at h
  | ok attrs =>
    rw [ha] at h
    simp only [] at h
    cases hre : readUeventFile root udev segs (mkDev (pathString segs.dropLast) attrs) with
    | error er => rw [hre] at h; cases h; exact hm
    | ok dev =>
      rw [hre] at h
      cases h
      exact nodupKeysB_mapInsertDev hm

theorem walk_good {root udev : FsEntry} :
    ∀ (cur : FsEntry) (segs : List String) (name : String)
      (m M : List (String × Device)),
      walkE root udev segs name cur m = .ok M →
      (∀ kv ∈ m, goodPair kv) → ∀ kv ∈ M, goodPair kv := by
  intro cur
  induction cur with
  | file c =>
    intro segs name m M hw hm
    unfold walkE at hw
    by_cases hn : name = "uevent"
    · rw [if_pos hn] at hw
      exact processUevent_good hw hm
    · rw [if_neg hn] at hw
      cases hw
      exact hm
  | dirUnreadable =>
    intro segs name m M hw hm
    cases hw
    exact hm
  | dirNil =>
    intro segs name m M hw hm
    cases hw
    exact hm
  | dirCons n e r ihe ihr =>
    intro segs name m M hw hm
    unfold walkE at hw
    cases hmid : walkE root udev (segs ++ [n]) n e m with
    | error er => rw [hmid] at hw; simp at hw
    | ok m' =>
      rw [hmid] at hw
      simp only [] at hw
      exact ihr segs name m' M hw (ihe (segs ++ [n]) n m m' hmid hm)

theorem walk_nodup {root udev : FsEntry} :
    ∀ (cur : FsEntry) (segs : List String) (name : String)
      (m M : List (String × Device)),
      walkE root udev segs name cur m = .ok M →
      nodupKeysB m = true → nodupKeysB M = true := by
  intro cur
  induction cur with
  | file c =>
    intro segs name m M hw hm
    unfold walkE at hw
    by_cases hn : name = "uevent"
    · rw [if_pos hn] at hw
      exact processUevent_nodup hw hm
    · rw [if_neg hn] at hw
      cases hw
      exact hm
  | dirUnreadable =>
    intro segs name m M hw hm
    cases hw
    exact hm
  | dirNil =>
    intro segs name m M hw hm
    cases hw
    exact hm
  | dirCons n e r ihe ihr =>
    intro segs name m M hw hm
    unfold walkE at hw
    cases hmid : walkE root udev (segs ++ [n]) n e m with
    | error er => rw [hmid] at hw; simp at hw
    | ok m' =>
      rw [hmid] at hw
      simp only [] at hw
      exact ihr segs name m' M hw (ihe (segs ++ [n]) n m m' hmid hm)

theorem nodupKeysB_to_nodup {α : Type} :
    ∀ {m : List (String × α)}, nodupKeysB m = true →
      (m.map Prod.fst).Nodup := by
  intro m
  induction m with
  | nil => intro _; simp
  | cons p t ih =>
    rcases p with ⟨k, w⟩
    intro h
    simp only [nodupKeysB, Bool.and_eq_true, Bool.not_eq_true'] at h
    simp only [List.map_cons, List.nodup_cons]
    refine ⟨?_, ih h.2⟩
    intro hmem
    rcases List.mem_map.mp hmem with ⟨q, hq, he⟩
    have : (t.any fun p => decide (p.1 = k)) = true := by
      apply List.any_eq_true.mpr
      exact ⟨q, hq, by simp [he]⟩
    rw [h.1] at this
    cases this

theorem scan_shape {root udev : FsEntry} {ds : List Device}
    (h : scanDevices root udev = .ok ds) :
    ∃ M, walkE root udev [] "." root [] = .ok M ∧ ds = linkTree M := by
  unfold scanDevices walkTop at h
  cases hw : walkE root udev [] "." root [] with
  | error er => rw [hw] at h; simp at h
  | ok M =>
    rw [hw] at h
    cases h
    exact ⟨M, rfl, rfl⟩

theorem mem_linkTree {M : List (String × Device)} {d : Device}
    (h : d ∈ linkTree M) :
    ∃ kv ∈ M, d = { kv.2 with
      Parent := findParent (containsKey M) kv.1
      Children := childrenOf M kv.1 } := by
  rcases List.mem_map.mp h with ⟨kv, hkv, he⟩
  exact ⟨kv, hkv, he.symm⟩

/-! ## Claim C8 -/

/-- C8: Devpath is a unique key of one scan result: no two devices
returned by the same ScanDevices call share a Devpath. -/
theorem devpath_unique (root udev : FsEntry) (ds : List Device)
    (h : scanDevices root udev = .ok ds) :
    (ds.map (fun d => d.Devpath)).Nodup := by
  rcases scan_shape h with ⟨M, hw, hds⟩
  have hg : ∀ kv ∈ M, goodPair kv :=
    walk_good root [] "." [] M hw (by intro kv hkv; cases hkv)
  have hnd : nodupKeysB M = true :=
    walk_nodup root [] "." [] M hw rfl
  have hmap : ds.map (fun d => d.Devpath) = M.map Prod.fst := by
    rw [hds]
    unfold linkTree
    rw [List.map_map]
    apply List.map_congr_left
    intro kv hkv
    exact (hg kv hkv).1
  rw [hmap]
  exact nodupKeysB_to_nodup hnd

/-- Witness for devpath_unique at a concrete scan. -/
theorem devpath_unique_witness :
    (([devA] : List Device).map (fun d => d.Devpath)).Nodup :=
  devpath_unique fsTop udevEmpty [devA] rfl

/-! ## Resolution lemmas and the walk invariant -/

theorem resolve_append (e : FsEntry) (a b : List String) :
    resolve e (a ++ b) = (resolve e a).bind (fun e' => resolve e' b) := by
  induction e generalizing a with
  | file c =>
    cases a with
    | nil => rfl
    | cons n t => rfl
  | dirUnreadable =>
    cases a with
    | nil => rfl
    | cons n t => rfl
  | dirNil =>
    cases a with
    | nil => rfl
    | cons n t => rfl
  | dirCons n' e' r ihe ihr =>
    cases a with
    | nil => rfl
    | cons n t =>
      simp only [List.cons_append, resolve]
      by_cases hn : n' = n
      · rw [if_pos hn, if_pos hn]
        exact ihe t
      · rw [if_neg hn, if_neg hn]
        exact ihr (n :: t)

theorem containsName_of_mem {s : FsEntry} {p : String × FsEntry}
    (h : p ∈ SpineCells s) : containsName s p.1 = true := by
  induction s with
  | file c => cases h
  | dirUnreadable => cases h
  | dirNil => cases h
  | dirCons n e r ihe ihr =>
    unfold SpineCells at h
    rcases List.mem_cons.mp h with h1 | h1
    · rw [h1]
      simp [containsName]
    · unfold containsName
      rw [ihr h1]
      simp

theorem wfE_parts {n : String} {e r : FsEntry}
    (h : wfE (.dirCons n e r) = true) :
    validName n = true ∧ containsName r n = false ∧ spineTail r = true ∧
    wfE e = true ∧ wfE r = true := by
  unfold wfE at h
  simp only [Bool.and_eq_true, Bool.not_eq_true'] at h
  exact ⟨h.1.1.1.1, h.1.1.1.2, h.1.1.2, h.1.2, h.2⟩

theorem wf_cells {s : FsEntry} {p : String × FsEntry}
    (hw : wfE s = true) (h : p ∈ SpineCells s) :
    wfE p.2 = true ∧ validName p.1 = true := by
  induction s with
  | file c => cases h
  | dirUnreadable => cases h
  | dirNil => cases h
  | dirCons n e r ihe ihr =>
    rcases wfE_parts hw with ⟨hv, hc, hs, hwe, hwr⟩
    unfold SpineCells at h
    rcases List.mem_cons.mp h with h1 | h1
    · rw [h1]
      exact ⟨hwe, hv⟩
    · exact ihr hwr h1

theorem resolve_one_of_mem {s : FsEntry} {p : String × FsEntry}
    (hw : wfE s = true) (h : p ∈ SpineCells s) :
    resolve s [p.1] = some p.2 := by
  induction s with
  | file c => cases h
  | dirUnreadable => cases h
  | dirNil => cases h
  | dirCons n e r ihe ihr =>
    rcases wfE_parts hw with ⟨hv, hc, hs, hwe, hwr⟩
    unfold SpineCells at h
    rcases List.mem_cons.mp h with h1 | h1
    · rw [h1]
      simp [resolve]
    · have hne : ¬ n = p.1 := by
        intro he
        have hcm := containsName_of_mem h1
        rw [← he] at hcm
        rw [hcm] at hc
        cases hc
      unfold resolve
      rw [if_neg hne]
      exact ihr hwr h1

theorem inv_child {root : FsEntry} {segs : List String} {name n : String}
    {e r : FsEntry} (h : WalkInv root segs name (.dirCons n e r)) :
    WalkInv root (segs ++ [n]) n e := by
  rcases h with ⟨h1, h2, h3, h4⟩
  have hhead := h2 (n, e) (by unfold SpineCells; exact List.mem_cons_self _ _)
  refine ⟨?_, ?_, ?_, hhead.2.1⟩
  · intro c hn hce
    refine ⟨?_, ⟨segs, rfl⟩⟩
    rw [← hce]
    exact hhead.1
  · intro p hp
    have hre : resolve root ((segs ++ [n]) ++ [p.1]) = some p.2 := by
      rw [resolve_append, hhead.1]
      simp only [Option.bind_some]
      exact resolve_one_of_mem hhead.2.1 hp
    exact ⟨hre, (wf_cells hhead.2.1 hp).1, (wf_cells hhead.2.1 hp).2⟩
  · intro x hx
    rcases List.mem_append.mp hx with hx1 | hx1
    · exact h3 x hx1
    · rw [List.mem_singleton.mp hx1]
      exact hhead.2.2

theorem inv_rest {root : FsEntry} {segs : List String} {name n : String}
    {e r : FsEntry} (h : WalkInv root segs name (.dirCons n e r)) :
    WalkInv root segs name r := by
  rcases h with ⟨h1, h2, h3, h4⟩
  rcases wfE_parts h4 with ⟨hv, hc, hs, hwe, hwr⟩
  refine ⟨?_, ?_, h3, hwr⟩
  · intro c hn hce
    rw [hce] at hs
    cases hs
  · intro p hp
    exact h2 p (by unfold SpineCells; exact List.mem_cons_of_mem _ hp)

/-! ## Claim C1: the walk never surfaces an error -/

theorem processUevent_total {root udev : FsEntry} {pre : List String}
    {m : List (String × Device)} {c : Option String}
    (hres : resolve root (pre ++ ["uevent"]) = some (.file c)) :
    ∃ M, processUevent root udev (pre ++ ["uevent"]) m = .ok M := by
  rw [resolve_append] at hres
  rcases Option.bind_eq_some.mp hres with ⟨e0, he0, hstep⟩
  unfold processUevent
  rw [List.dropLast_concat]
  cases e0 with
  | file c0 => simp [resolve] at hstep
  | dirUnreadable => simp [resolve] at hstep
  | dirNil => simp [resolve] at hstep
  | dirCons n0 ee rr =>
    unfold readAttrs
    rw [he0]
    simp only []
    cases readUeventFile root udev (pre ++ ["uevent"])
        (mkDev (pathString pre) (attrsFold (.dirCons n0 ee rr) [])) with
    | error er => exact ⟨m, rfl⟩
    | ok dev => exact ⟨_, rfl⟩

theorem walk_total {root udev : FsEntry} :
    ∀ (cur : FsEntry) (segs : List String) (name : String)
      (m : List (String × Device)),
      WalkInv root segs name cur →
      ∃ M, walkE root udev segs name cur m = .ok M := by
  intro cur
  induction cur with
  | file c =>
    intro segs name m hinv
    unfold walkE
    by_cases hn : name = "uevent"
    · rcases hinv.1 c hn rfl with ⟨hres, pre, hpre⟩
      subst hn
      subst hpre
      rw [if_pos rfl]
      exact processUevent_total hres
    · rw [if_neg hn]
      exact ⟨m, rfl⟩
  | dirUnreadable => intro segs name m _; exact ⟨m, rfl⟩
  | dirNil => intro segs name m _; exact ⟨m, rfl⟩
  | dirCons n e r ihe ihr =>
    intro segs name m hinv
    rcases ihe (segs ++ [n]) n m (inv_child hinv) with ⟨m', hm'⟩
    rcases ihr segs name m' (inv_rest hinv) with ⟨M, hM⟩
    refine ⟨M, ?_⟩
    unfold walkE
    rw [hm']
    exact hM

theorem walkInv_top {root : FsEntry} (hw : wfE root = true) :
    WalkInv root [] "." root := by
  refine ⟨?_, ?_, ?_, hw⟩
  · intro c hn
    exact absurd hn (by decide)
  · intro p hp
    refine ⟨?_, (wf_cells hw hp).1, (wf_cells hw hp).2⟩
    rw [List.nil_append]
    exact resolve_one_of_mem hw hp
  · intro n hn
    cases hn

/-- C1: under a well-formed devices root, ScanDevices never returns an
error: in a single filesystem snapshot every per-entry condition, an
unreadable file, an unlistable directory or a missing entry, is absorbed
by the walk callback, the affected entry or subtree contributes nothing,
and the caller receives the best-effort device set with a nil error. -/
theorem scan_never_errs (root udev : FsEntry) (hw : wfE root = true) :
    ∃ ds, scanDevices root udev = .ok ds := by
  rcases @walk_total root udev root [] "." []
      (walkInv_top hw) with ⟨M, hM⟩
  refine ⟨linkTree M, ?_⟩
  unfold scanDevices walkTop
  rw [hM]

/-- Witness for scan_never_errs on a fixture holding an unlistable
directory, an unreadable file and an unreadable marker next to a
readable device. -/
theorem scan_never_errs_witness :
    wfE mixedFixture = true ∧
    ∃ ds, scanDevices mixedFixture udevEmpty = .ok ds :=
  ⟨by decide, scan_never_errs mixedFixture udevEmpty (by decide)⟩

/-! ## Split and join lemmas -/

theorem splitChars_ne_nil (c : Char) (l : List Char) :
    splitChars c l ≠ [] := by
  cases l with
  | nil => simp [splitChars]
  | cons x xs =>
    unfold splitChars
    by_cases hx : x = c
    · rw [if_pos hx]
      simp
    · rw [if_neg hx]
      simp

theorem splitChars_not_mem {c : Char} :
    ∀ {l : List Char} {p : List Char}, p ∈ splitChars c l → c ∉ p := by
  intro l
  induction l with
  | nil =>
    intro p hp
    unfold splitChars at hp
    rw [List.mem_singleton.mp hp]
    simp
  | cons x xs ih =>
    intro p hp
    unfold splitChars at hp
    by_cases hx : x = c
    · rw [if_pos hx] at hp
      rcases List.mem_cons.mp hp with h1 | h1
      · rw [h1]; simp
      · exact ih h1
    · rw [if_neg hx] at hp
      rcases List.mem_cons.mp hp with h1 | h1
      · rw [h1]
        intro hm
        rcases List.mem_cons.mp hm with h2 | h2
        · exact hx h2.symm
        · have hhd : (splitChars c xs).headD [] ∈ splitChars c xs := by
            cases hr : splitChars c xs with
            | nil => exact absurd hr (splitChars_ne_nil c xs)
            | cons h t => simp
          exact ih hhd h2
      · have hmem : p ∈ splitChars c xs := List.mem_of_mem_tail h1
        exact ih hmem

theorem joinChars_cons_headD {c : Char} {r : List (List Char)} (x : Char)
    (hr : r ≠ []) :
    joinChars c ((x :: r.headD []) :: r.tail) = x :: joinChars c r := by
  cases r with
  | nil => exact absurd rfl hr
  | cons h t =>
    cases t with
    | nil => rfl
    | cons t1 t2 => rfl

theorem joinChars_splitChars (c : Char) (l : List Char) :
    joinChars c (splitChars c l) = l := by
  induction l with
  | nil => rfl
  | cons x xs ih =>
    unfold splitChars
    by_cases hx : x = c
    · rw [if_pos hx]
      cases hr : splitChars c xs with
      | nil => exact absurd hr (splitChars_ne_nil c xs)
      | cons h t =>
        show joinChars c ([] :: h :: t) = x :: xs
        unfold joinChars
        rw [← hr, ih, hx]
        rfl
    · rw [if_neg hx]
      rw [joinChars_cons_headD x (splitChars_ne_nil c xs), ih]

theorem splitChars_no_sep {c : Char} {p : List Char} (h : c ∉ p) :
    splitChars c p = [p] := by
  induction p with
  | nil => rfl
  | cons y ys ih =>
    have hy : ¬ y = c := by
      intro he
      exact h (he ▸ List.mem_cons_self y ys)
    have hys : c ∉ ys := fun hm => h (List.mem_cons_of_mem y hm)
    unfold splitChars
    rw [if_neg hy, ih hys]
    rfl

theorem splitChars_append_sep {c : Char} {p rest : List Char} (h : c ∉ p) :
    splitChars c (p ++ c :: rest) = p :: splitChars c rest := by
  induction p with
  | nil =>
    show splitChars c (c :: rest) = [] :: splitChars c rest
    conv_lhs => unfold splitChars
    rw [if_pos rfl]
  | cons y ys ih =>
    have hy : ¬ y = c := by
      intro he
      exact h (he ▸ List.mem_cons_self y ys)
    have hys : c ∉ ys := fun hm => h (List.mem_cons_of_mem y hm)
    show splitChars c (y :: (ys ++ c :: rest)) = (y :: ys) :: splitChars c rest
    conv_lhs => unfold splitChars
    rw [if_neg hy, ih hys]
    rfl

theorem splitChars_joinChars {c : Char} :
    ∀ {parts : List (List Char)}, parts ≠ [] → (∀ p ∈ parts, c ∉ p) →
      splitChars c (joinChars c parts) = parts := by
  intro parts
  induction parts with
  | nil => intro h; exact absurd rfl h
  | cons p t ih =>
    intro _ hfree
    cases t with
    | nil =>
      show splitChars c p = [p]
      exact splitChars_no_sep (hfree p (List.mem_cons_self p []))
    | cons q t2 =>
      show splitChars c (p ++ c :: joinChars c (q :: t2)) = p :: q :: t2
      rw [splitChars_append_sep (hfree p (List.mem_cons_self _ _))]
      rw [ih (by simp) (fun x hx => hfree x (List.mem_cons_of_mem p hx))]

theorem joinChars_append (c : Char) :
    ∀ {pre suf : List (List Char)}, pre ≠ [] → suf ≠ [] →
      joinChars c (pre ++ suf) = joinChars c pre ++ c :: joinChars c suf := by
  intro pre
  induction pre with
  | nil => intro _ h; exact absurd rfl h
  | cons p t ih =>
    intro suf _ hsuf
    cases t with
    | nil =>
      cases suf with
      | nil => exact absurd rfl hsuf
      | cons s ss => rfl
    | cons q t2 =>
      show joinChars c (p :: ((q :: t2) ++ suf)) =
        joinChars c (p :: q :: t2) ++ c :: joinChars c suf
      have h1 : joinChars c (p :: ((q :: t2) ++ suf)) =
          p ++ c :: joinChars c ((q :: t2) ++ suf) := rfl
      rw [h1, ih (by simp) hsuf]
      show p ++ c :: (joinChars c (q :: t2) ++ c :: joinChars c suf) =
        (p ++ c :: joinChars c (q :: t2)) ++ c :: joinChars c suf
      simp

/-! ## Path string injectivity on valid names -/

theorem validName_props {n : String} (h : validName n = true) :
    n ≠ "" ∧ n ≠ "." ∧ ('/' : Char) ∉ n.data := by
  unfold validName at h
  simp only [Bool.and_eq_true, decide_eq_true_eq, Bool.not_eq_true'] at h
  refine ⟨h.1.1, h.1.2, ?_⟩
  intro hm
  have h2 := List.elem_eq_true_of_mem hm
  rw [List.contains] at h
  rw [h2] at h
  cases h.2

theorem data_map_ne_nil {a : List String} (h : a ≠ []) :
    a.map String.data ≠ [] := by
  cases a with
  | nil => exact absurd rfl h
  | cons x t => simp

theorem sep_not_mem_data_map {a : List String}
    (ha : ∀ n ∈ a, validName n = true) :
    ∀ p ∈ a.map String.data, ('/' : Char) ∉ p := by
  intro p hp
  rcases List.mem_map.mp hp with ⟨n, hn, he⟩
  rw [← he]
  exact (validName_props (ha n hn)).2.2

theorem joinChars_valid_ne_dot {a : List String} (hne : a ≠ [])
    (ha : ∀ n ∈ a, validName n = true) :
    joinChars '/' (a.map String.data) ≠ ['.'] := by
  cases a with
  | nil => exact absurd rfl hne
  | cons x t =>
    cases t with
    | nil =>
      show x.data ≠ ['.']
      intro he
      have hx := (validName_props (ha x (List.mem_cons_self x []))).2.1
      apply hx
      apply String.ext
      rw [he]
    | cons y t2 =>
      show x.data ++ '/' :: joinChars '/' ((y :: t2).map String.data) ≠ ['.']
      intro he
      cases hx : x.data with
      | nil =>
        rw [hx] at he
        simp at he
      | cons z zs =>
        rw [hx] at he
        simp at he

theorem pathString_inj {a b : List String}
    (ha : ∀ n ∈ a, validName n = true) (hb : ∀ n ∈ b, validName n = true)
    (h : pathString a = pathString b) : a = b := by
  cases a with
  | nil =>
    cases b with
    | nil => rfl
    | cons y t =>
      exfalso
      unfold pathString at h
      have hd := congrArg String.data h
      rw [show ("." : String).data = ['.'] from rfl] at hd
      exact joinChars_valid_ne_dot (by simp) hb hd.symm
  | cons x s =>
    cases b with
    | nil =>
      exfalso
      unfold pathString at h
      have hd := congrArg String.data h
      rw [show ("." : String).data = ['.'] from rfl] at hd
      exact joinChars_valid_ne_dot (by simp) ha hd
    | cons y t =>
      unfold pathString at h
      have hd := congrArg String.data h
      have hj : joinChars '/' ((x :: s).map String.data) =
          joinChars '/' ((y :: t).map String.data) := hd
      have hsa := @splitChars_joinChars '/' ((x :: s).map String.data)
        (@data_map_ne_nil (x :: s) (by simp))
        (sep_not_mem_data_map ha)
      have hsb := @splitChars_joinChars '/' ((y :: t).map String.data)
        (@data_map_ne_nil (y :: t) (by simp))
        (sep_not_mem_data_map hb)
      have hmaps : (x :: s).map String.data = (y :: t).map String.data := by
        rw [← hsa, ← hsb, hj]
      have hcomp : (String.mk ∘ String.data) = (id : String → String) :=
        funext mk_data
      have := congrArg (List.map String.mk) hmaps
      rw [List.map_map, List.map_map, hcomp, List.map_id, List.map_id] at this
      exact this

/-! ## Claim C10: a failing enrichment chain drops the device -/

theorem resolve_valid_names {root : FsEntry} :
    ∀ {p : List String} {e : FsEntry}, wfE root = true →
      resolve root p = some e → ∀ n ∈ p, validName n = true := by
  induction root with
  | file c =>
    intro p e _ hres n hn
    cases p with
    | nil => cases hn
    | cons x t => simp [resolve] at hres
  | dirUnreadable =>
    intro p e _ hres n hn
    cases p with
    | nil => cases hn
    | cons x t => simp [resolve] at hres
  | dirNil =>
    intro p e _ hres n hn
    cases p with
    | nil => cases hn
    | cons x t => simp [resolve] at hres
  | dirCons n' e' r ihe ihr =>
    intro p e hw hres n hn
    rcases wfE_parts hw with ⟨hv, hc, hs, hwe, hwr⟩
    cases p with
    | nil => cases hn
    | cons x t =>
      unfold resolve at hres
      by_cases hx : n' = x
      · rw [if_pos hx] at hres
        rcases List.mem_cons.mp hn with h1 | h1
        · rw [h1, ← hx]
          exact hv
        · exact ihe hwe hres n h1
      · rw [if_neg hx] at hres
        exact ihr hwr hres n hn

theorem walk_sound {root udev : FsEntry} :
    ∀ (cur : FsEntry) (segs : List String) (name : String)
      (m M : List (String × Device)),
      WalkInv root segs name cur →
      walkE root udev segs name cur m = .ok M →
      ∀ kv ∈ M, kv ∈ m ∨
        ∃ pre c attrs,
          resolve root (pre ++ ["uevent"]) = some (.file (some c)) ∧
          readAttrs root pre = .ok attrs ∧
          readUeventFile root udev (pre ++ ["uevent"])
            (mkDev (pathString pre) attrs) = .ok kv.2 ∧
          kv.1 = kv.2.Devpath ∧ kv.2.Devpath = pathString pre ∧
          (∀ n ∈ pre, validName n = true) := by
  intro cur
  induction cur with
  | file c =>
    intro segs name m M hinv hw kv hkv
    unfold walkE at hw
    by_cases hn : name = "uevent"
    · rcases hinv.1 c hn rfl with ⟨hres, pre, hpre⟩
      subst hn
      subst hpre
      rw [if_pos rfl] at hw
      unfold processUevent at hw
      rw [List.dropLast_concat] at hw
      cases ha : readAttrs root pre with
      | error er => rw [ha] at hw; simp at hw
      | ok attrs =>
        rw [ha] at hw
        simp only [] at hw
        cases hre : readUeventFile root udev (pre ++ ["uevent"])
            (mkDev (pathString pre) attrs) with
        | error er =>
          rw [hre] at hw
          cases hw
          exact Or.inl hkv
        | ok dev =>
          rw [hre] at hw
          cases hw
          rcases mem_mapInsertDev hkv with h1 | h1
          · exact Or.inl h1
          · right
            cases hc0 : c with
            | none =>
              exfalso
              rw [hc0] at hres
              unfold readUeventFile at hre
              rw [hres] at hre
              simp at hre
            | some cc =>
              rw [hc0] at hres
              have hkeep := readUeventFile_keeps hre
              refine ⟨pre, cc, attrs, hres, ha, ?_, ?_, ?_, ?_⟩
              · rw [h1]
                exact hre
              · rw [h1]
              · rw [h1]
                exact hkeep.1
              · intro n hnm
                exact hinv.2.2.1 n (List.mem_append.mpr (Or.inl hnm))
    · rw [if_neg hn] at hw
      cases hw
      exact Or.inl hkv
  | dirUnreadable =>
    intro segs name m M _ hw kv hkv
    cases hw
    exact Or.inl hkv
  | dirNil =>
    intro segs name m M _ hw kv hkv
    cases hw
    exact Or.inl hkv
  | dirCons n e r ihe ihr =>
    intro segs name m M hinv hw kv hkv
    unfold walkE at hw
    cases hmid : walkE root udev (segs ++ [n]) n e m with
    | error er => rw [hmid] at hw; simp at hw
    | ok m' =>
      rw [hmid] at hw
      simp only [] at hw
      rcases ihr segs name m' M (inv_rest hinv) hw kv hkv with h1 | h1
      · exact ihe (segs ++ [n]) n m m' (inv_child hinv) hmid kv h1
      · exact Or.inr h1

/-- C10: when the marker file, the sibling dev file or the runtime
database record of a device directory exists but cannot be read, that
directory contributes no device to the result, while the walk continues
and ScanDevices still returns without error. -/
theorem failing_chain_drops_device (root udev : FsEntry)
    (segs : List String) (hw : wfE root = true)
    (hfail :
      resolve root (segs ++ ["uevent"]) = some (.file none) ∨
      (∃ c, resolve root (segs ++ ["uevent"]) = some (.file (some c)) ∧
        resolve root (segs ++ ["dev"]) = some (.file none)) ∨
      (∃ c dvc, resolve root (segs ++ ["uevent"]) = some (.file (some c)) ∧
        resolve root (segs ++ ["dev"]) = some (.file (some dvc)) ∧
        resolve udev
            [String.mk ('c' :: (goTrim (strTake maxDevSize dvc)).data)] =
          some (.file none))) :
    ∃ ds, scanDevices root udev = .ok ds ∧
      ∀ d ∈ ds, d.Devpath ≠ pathString segs := by
  rcases @walk_total root udev root [] "." []
      (walkInv_top hw) with ⟨M, hM⟩
  refine ⟨linkTree M, by unfold scanDevices walkTop; rw [hM], ?_⟩
  intro d hd heq
  rcases mem_linkTree hd with ⟨kv, hkv, hde⟩
  rcases walk_sound root [] "." [] M (walkInv_top hw) hM kv hkv with h0 | h0
  · cases h0
  rcases h0 with ⟨pre, c, attrs, hres, ha, hread, hkey, hdp, hvalid⟩
  have hdd : d.Devpath = kv.2.Devpath := by rw [hde]
  have hpp : pathString pre = pathString segs := by
    rw [← hdp, ← hdd, heq]
  have hsegv : ∀ n ∈ segs, validName n = true := by
    have hsome : ∃ e, resolve root (segs ++ ["uevent"]) = some e := by
      rcases hfail with h | h | h
      · exact ⟨_, h⟩
      · rcases h with ⟨c1, h1, _⟩
        exact ⟨_, h1⟩
      · rcases h with ⟨c1, dvc, h1, _, _⟩
        exact ⟨_, h1⟩
    rcases hsome with ⟨e, he⟩
    intro n hn
    exact resolve_valid_names hw he n (List.mem_append.mpr (Or.inl hn))
  have hpre : pre = segs := pathString_inj hvalid hsegv hpp
  subst hpre
  rcases hfail with hcase | hcase | hcase
  · rw [hres] at hcase
    simp at hcase
  · rcases hcase with ⟨c1, h1, h2⟩
    unfold readUeventFile at hread
    rw [hres, List.dropLast_concat] at hread
    simp only [] at hread
    unfold readDevFile at hread
    rw [h2] at hread
    simp at hread
  · rcases hcase with ⟨c1, dvc, h1, h2, h3⟩
    unfold readUeventFile at hread
    rw [hres, List.dropLast_concat] at hread
    simp only [] at hread
    unfold readDevFile at hread
    rw [h2] at hread
    simp only [] at hread
    unfold readUdevInfo at hread
    rw [h3] at hread
    simp at hread

/-- Witness for failing_chain_drops_device on the fixture whose bad
directory holds an unreadable marker file. -/
theorem failing_chain_drops_device_witness :
    wfE mixedFixture = true ∧
    ∃ ds, scanDevices mixedFixture udevEmpty = .ok ds ∧
      ∀ d ∈ ds, d.Devpath ≠ pathString ["bad"] :=
  ⟨by decide,
   failing_chain_drops_device mixedFixture udevEmpty ["bad"] (by decide)
     (Or.inl (by decide))⟩

/-! ## The tree building loop against the reference search -/

theorem isSuffixOf_eq_true {l1 l2 : List Char} :
    l1.isSuffixOf l2 = true ↔ l1 <:+ l2 := by
  unfold List.isSuffixOf
  rw [List.isPrefixOf_iff_prefix, List.reverse_prefix]

theorem trimSuffixChars_strip (a b : List Char) :
    trimSuffixChars (a ++ b) b = a := by
  unfold trimSuffixChars
  rw [if_pos (isSuffixOf_eq_true.mpr ⟨a, rfl⟩)]
  rw [List.length_append]
  rw [show a.length + b.length - b.length = a.length from by omega]
  exact List.take_left a b

theorem trimSuffixChars_of_longer {a b : List Char}
    (h : a.length < b.length) : trimSuffixChars a b = a := by
  unfold trimSuffixChars
  rw [if_neg]
  intro hs
  have := (isSuffixOf_eq_true.mp hs).length_le
  omega

theorem joinStrs_single (p : String) : joinStrs [p] = p := by
  apply String.ext
  rfl

theorem joinStrs_concat {pre : List String} (hpre : pre ≠ []) (p : String) :
    joinStrs (pre ++ [p]) = String.mk ((joinStrs pre).data ++ '/' :: p.data) := by
  apply String.ext
  show joinChars '/' ((pre ++ [p]).map String.data) = _
  rw [List.map_append]
  rw [joinChars_append '/' (data_map_ne_nil hpre) (by simp)]
  rfl

theorem goTrimSuffix_strip (a b : List Char) :
    goTrimSuffix (String.mk (a ++ '/' :: b)) (String.mk ('/' :: b)) =
      String.mk a := by
  unfold goTrimSuffix
  apply String.ext
  show trimSuffixChars (a ++ '/' :: b) ('/' :: b) = a
  exact trimSuffixChars_strip a ('/' :: b)

theorem goTrimSuffix_self (p : String) :
    goTrimSuffix p (String.mk ('/' :: p.data)) = p := by
  unfold goTrimSuffix
  apply String.ext
  show trimSuffixChars p.data ('/' :: p.data) = p.data
  apply trimSuffixChars_of_longer
  simp

theorem specSearch_concat (present : String → Bool) {pre : List String}
    (hpre : pre ≠ []) (p : String) :
    specSearch present (pre ++ [p]) =
      if present (joinStrs pre) = true then some (joinStrs pre)
      else specSearch present pre := by
  cases pre with
  | nil => exact absurd rfl hpre
  | cons q qs =>
    cases qs with
    | nil =>
      conv_lhs => unfold specSearch
      rfl
    | cons q2 t2 =>
      have hsh : (q :: q2 :: t2) ++ [p] = q :: q2 :: (t2 ++ [p]) := by simp
      have hd2 : (q :: q2 :: (t2 ++ [p])).dropLast = q :: q2 :: t2 := by
        rw [← List.cons_append, ← List.cons_append]
        exact List.dropLast_concat
      rw [hsh]
      conv_lhs => unfold specSearch
      rw [hd2]

theorem floop_spec (present : String → Bool) :
    ∀ {parts : List String}, parts ≠ [] →
      floop present (joinStrs parts) parts.reverse = specSearch present parts := by
  intro parts
  induction parts using List.reverseRecOn with
  | nil => intro h; exact absurd rfl h
  | append_singleton pre p ih =>
    intro _
    cases hpre : pre with
    | nil =>
      show floop present (joinStrs [p]) [p].reverse = specSearch present [p]
      rw [joinStrs_single]
      show (if present (goTrimSuffix p (String.mk ('/' :: p.data)))
          then some (goTrimSuffix p (String.mk ('/' :: p.data)))
          else floop present (goTrimSuffix p (String.mk ('/' :: p.data))) []) =
        specSearch present [p]
      rw [goTrimSuffix_self]
      unfold specSearch
      by_cases hp : present p = true
      · rw [if_pos hp, if_pos hp]
      · rw [if_neg hp, if_neg hp]
        rfl
    | cons q qs =>
      have hpn : pre ≠ [] := by rw [hpre]; simp
      rw [← hpre]
      have hrev : (pre ++ [p]).reverse = p :: pre.reverse := by simp
      rw [hrev]
      show (if present (goTrimSuffix (joinStrs (pre ++ [p])) (String.mk ('/' :: p.data)))
          then some (goTrimSuffix (joinStrs (pre ++ [p])) (String.mk ('/' :: p.data)))
          else floop present
            (goTrimSuffix (joinStrs (pre ++ [p])) (String.mk ('/' :: p.data)))
            pre.reverse) = specSearch present (pre ++ [p])
      have hstrip : goTrimSuffix (joinStrs (pre ++ [p]))
          (String.mk ('/' :: p.data)) = joinStrs pre := by
        rw [joinStrs_concat hpn p]
        have := goTrimSuffix_strip (joinStrs pre).data p.data
        rw [this]
      rw [hstrip, specSearch_concat present hpn p]
      by_cases hp : present (joinStrs pre) = true
      · rw [if_pos hp, if_pos hp]
      · rw [if_neg hp, if_neg hp]
        exact ih hpn

theorem goSplit_ne_nil (dp : String) : goSplit dp ≠ [] := by
  unfold goSplit
  intro h
  exact splitChars_ne_nil '/' dp.data (by simpa using h)

theorem joinStrs_goSplit (dp : String) : joinStrs (goSplit dp) = dp := by
  apply String.ext
  show joinChars '/' ((goSplit dp).map String.data) = dp.data
  unfold goSplit
  rw [List.map_map]
  have hcomp : (String.data ∘ String.mk) =
      (id : List Char → List Char) := funext (fun l => rfl)
  rw [hcomp, List.map_id]
  exact joinChars_splitChars '/' dp.data

theorem findParent_eq_specSearch (present : String → Bool) (dp : String) :
    findParent present dp = specSearch present (goSplit dp) := by
  unfold findParent
  have h1 : floop present dp (goSplit dp).reverse =
      floop present (joinStrs (goSplit dp)) (goSplit dp).reverse := by
    rw [joinStrs_goSplit]
  rw [h1]
  exact floop_spec present (goSplit_ne_nil dp)

/-! ## Properties of the reference search -/

theorem specSearch_single (present : String → Bool) (p : String) :
    specSearch present [p] = if present p = true then some p else none := by
  conv_lhs => unfold specSearch

theorem specSearch_present (present : String → Bool) :
    ∀ {segs : List String} {q : String}, specSearch present segs = some q →
      present q = true := by
  intro segs
  induction segs using List.reverseRecOn with
  | nil =>
    intro q h
    simp [specSearch] at h
  | append_singleton pre p ih =>
    intro q h
    cases hpre : pre with
    | nil =>
      rw [hpre] at h
      simp only [List.nil_append] at h
      rw [specSearch_single] at h
      by_cases hp : present p = true
      · rw [if_pos hp] at h
        cases h
        exact hp
      · rw [if_neg hp] at h
        cases h
    | cons q1 t1 =>
      have hpn : pre ≠ [] := by rw [hpre]; simp
      rw [specSearch_concat present hpn p] at h
      by_cases hp : present (joinStrs pre) = true
      · rw [if_pos hp] at h
        cases h
        exact hp
      · rw [if_neg hp] at h
        exact ih h

theorem bool_not_true_eq_false {b : Bool} (h : ¬ b = true) : b = false := by
  cases b
  · rfl
  · exact absurd rfl h

theorem specSearch_found (present : String → Bool) :
    ∀ {segs : List String}, 2 ≤ segs.length →
      ∀ {q : String}, specSearch present segs = some q →
      ∃ k, 1 ≤ k ∧ k < segs.length ∧ q = joinStrs (segs.take k) ∧
        ∀ j, k < j → j < segs.length →
          present (joinStrs (segs.take j)) = false := by
  intro segs
  induction segs using List.reverseRecOn with
  | nil => intro h; simp at h
  | append_singleton pre p ih =>
    intro hlen q h
    have hpn : pre ≠ [] := by
      intro he
      rw [he] at hlen
      simp at hlen
    rw [specSearch_concat present hpn p] at h
    by_cases hp : present (joinStrs pre) = true
    · rw [if_pos hp] at h
      cases h
      refine ⟨pre.length, ?_, ?_, ?_, ?_⟩
      · cases pre with
        | nil => exact absurd rfl hpn
        | cons a t => simp
      · simp
      · rw [List.take_left]
      · intro j hj1 hj2
        exfalso
        rw [List.length_append, List.length_singleton] at hj2
        omega
    · rw [if_neg hp] at h
      by_cases hp2 : 2 ≤ pre.length
      · rcases ih hp2 h with ⟨k, hk1, hk2, hk3, hk4⟩
        refine ⟨k, hk1, ?_, ?_, ?_⟩
        · rw [List.length_append, List.length_singleton]
          omega
        · rw [List.take_append_of_le_length (le_of_lt hk2)]
          exact hk3
        · intro j hj1 hj2
          rw [List.length_append, List.length_singleton] at hj2
          by_cases hj3 : j < pre.length
          · rw [List.take_append_of_le_length (le_of_lt hj3)]
            exact hk4 j hj1 hj3
          · have hj4 : j = pre.length := by omega
            rw [hj4, List.take_left]
            exact bool_not_true_eq_false hp
      · cases pre with
        | nil => exact absurd rfl hpn
        | cons x t =>
          cases t with
          | nil =>
            rw [specSearch_single] at h
            rw [joinStrs_single] at hp
            by_cases hx : present x = true
            · exact absurd hx hp
            · rw [if_neg hx] at h
              cases h
          | cons y t2 =>
            exfalso
            apply hp2
            simp

theorem specSearch_none (present : String → Bool) :
    ∀ {segs : List String}, segs ≠ [] → specSearch present segs = none →
      ∀ j, 1 ≤ j → j < segs.length →
        present (joinStrs (segs.take j)) = false := by
  intro segs
  induction segs using List.reverseRecOn with
  | nil => intro h; exact absurd rfl h
  | append_singleton pre p ih =>
    intro _ h j hj1 hj2
    by_cases hpn : pre = []
    · exfalso
      rw [hpn] at hj2
      simp at hj2
      omega
    · rw [specSearch_concat present hpn p] at h
      by_cases hp : present (joinStrs pre) = true
      · rw [if_pos hp] at h
        cases h
      · rw [if_neg hp] at h
        rw [List.length_append, List.length_singleton] at hj2
        by_cases hj3 : j < pre.length
        · rw [List.take_append_of_le_length (le_of_lt hj3)]
          exact ih hpn h j hj1 hj3
        · have hj4 : j = pre.length := by omega
          rw [hj4, List.take_left]
          exact bool_not_true_eq_false hp

/-! ## Splitting against appending, and segment arithmetic -/

theorem splitChars_cons (c y : Char) (ys : List Char) :
    splitChars c (y :: ys) =
      if y = c then [] :: splitChars c ys
      else (y :: (splitChars c ys).headD []) :: (splitChars c ys).tail := by
  conv_lhs => unfold splitChars

theorem splitChars_append_full (c : Char) :
    ∀ (a b : List Char), splitChars c (a ++ c :: b) =
      splitChars c a ++ splitChars c b := by
  intro a
  induction a with
  | nil =>
    intro b
    show splitChars c (c :: b) = splitChars c [] ++ splitChars c b
    rw [splitChars_cons, if_pos rfl]
    rfl
  | cons y ys ih =>
    intro b
    show splitChars c (y :: (ys ++ c :: b)) =
      splitChars c (y :: ys) ++ splitChars c b
    rw [splitChars_cons c y (ys ++ c :: b), splitChars_cons c y ys]
    by_cases hy : y = c
    · rw [if_pos hy, if_pos hy, ih b]
      rfl
    · rw [if_neg hy, if_neg hy, ih b]
      cases hsy : splitChars c ys with
      | nil => exact absurd hsy (splitChars_ne_nil c ys)
      | cons hh tt => rfl

theorem joinStrs_map_mk (X : List (List Char)) :
    joinStrs (X.map String.mk) = String.mk (joinChars '/' X) := by
  unfold joinStrs
  rw [List.map_map]
  have hcomp : (String.data ∘ String.mk) = (id : List Char → List Char) :=
    funext (fun l => rfl)
  rw [hcomp, List.map_id]

theorem goSplit_sep_free {dp : String} :
    ∀ n ∈ goSplit dp, ('/' : Char) ∉ n.data := by
  intro n hn
  unfold goSplit at hn
  rcases List.mem_map.mp hn with ⟨p, hp, he⟩
  rw [← he]
  exact splitChars_not_mem hp

theorem goSplit_single_of_not_mem {dp : String} (h : ('/' : Char) ∉ dp.data) :
    goSplit dp = [dp] := by
  unfold goSplit
  rw [splitChars_no_sep h]
  rfl

theorem goSplit_multi_of_mem {dp : String} (h : ('/' : Char) ∈ dp.data) :
    2 ≤ (goSplit dp).length := by
  rcases List.append_of_mem h with ⟨a, b, hab⟩
  unfold goSplit
  rw [List.length_map, hab, splitChars_append_full, List.length_append]
  have h1 : 0 < (splitChars '/' a).length :=
    List.length_pos.mpr (splitChars_ne_nil '/' a)
  have h2 : 0 < (splitChars '/' b).length :=
    List.length_pos.mpr (splitChars_ne_nil '/' b)
  omega

theorem goSplit_joinStrs {X : List String} (hX : X ≠ [])
    (hfree : ∀ n ∈ X, ('/' : Char) ∉ n.data) :
    goSplit (joinStrs X) = X := by
  unfold goSplit joinStrs
  show (splitChars '/' (joinChars '/' (X.map String.data))).map String.mk = X
  have hfree2 : ∀ p ∈ X.map String.data, ('/' : Char) ∉ p := by
    intro p hp
    rcases List.mem_map.mp hp with ⟨s, hs, he⟩
    rw [← he]
    exact hfree s hs
  rw [splitChars_joinChars (data_map_ne_nil hX) hfree2, List.map_map]
  have hcomp : (String.mk ∘ String.data) = (id : String → String) :=
    funext (fun s => rfl)
  rw [hcomp, List.map_id]

theorem joinStrs_append {a b : List String} (ha : a ≠ []) (hb : b ≠ []) :
    joinStrs (a ++ b) = joinStrs a ++ "/" ++ joinStrs b := by
  apply String.ext
  show joinChars '/' ((a ++ b).map String.data) = _
  rw [List.map_append,
    joinChars_append '/' (data_map_ne_nil ha) (data_map_ne_nil hb)]
  rw [String.data_append, String.data_append, List.append_assoc]
  rfl

theorem take_goSplit_ne_nil {dp : String} {k : Nat} (hk1 : 1 ≤ k) :
    (goSplit dp).take k ≠ [] := by
  intro he
  have hl := congrArg List.length he
  rw [List.length_take, List.length_nil] at hl
  have := List.length_pos.mpr (goSplit_ne_nil dp)
  omega

theorem ancestor_align {dp q r : String} (h : dp = q ++ "/" ++ r) :
    ∃ k, 1 ≤ k ∧ k < (goSplit dp).length ∧
      q = joinStrs ((goSplit dp).take k) := by
  have hd : dp.data = q.data ++ '/' :: r.data := by
    rw [h, String.data_append, String.data_append, List.append_assoc]
    rfl
  have hs : splitChars '/' dp.data =
      splitChars '/' q.data ++ splitChars '/' r.data := by
    rw [hd]
    exact splitChars_append_full '/' q.data r.data
  refine ⟨(splitChars '/' q.data).length, ?_, ?_, ?_⟩
  · exact List.length_pos.mpr (splitChars_ne_nil '/' q.data)
  · unfold goSplit
    rw [List.length_map, hs, List.length_append]
    have := List.length_pos.mpr (splitChars_ne_nil '/' r.data)
    omega
  · unfold goSplit
    rw [hs, List.map_append]
    have hlen : (splitChars '/' q.data).length =
        ((splitChars '/' q.data).map String.mk).length :=
      (List.length_map _ _).symm
    rw [hlen, List.take_left, joinStrs_map_mk]
    apply String.ext
    show q.data = joinChars '/' (splitChars '/' q.data)
    exact (joinChars_splitChars '/' q.data).symm

theorem ancestor_of_take {dp : String} {k : Nat}
    (hk1 : 1 ≤ k) (hk2 : k < (goSplit dp).length) :
    ∃ r : String, dp = joinStrs ((goSplit dp).take k) ++ "/" ++ r := by
  refine ⟨joinStrs ((goSplit dp).drop k), ?_⟩
  have hne2 : (goSplit dp).drop k ≠ [] := by
    intro he
    have hl := congrArg List.length he
    rw [List.length_drop, List.length_nil] at hl
    omega
  rw [← joinStrs_append (take_goSplit_ne_nil hk1) hne2,
    List.take_append_drop, joinStrs_goSplit]

theorem joinStrs_take_lt {segs : List String} {k : Nat}
    (hk1 : 1 ≤ k) (hk2 : k < segs.length) :
    (joinStrs (segs.take k)).length < (joinStrs (segs.take (k + 1))).length := by
  have hget : segs[k]? = some (segs.get ⟨k, hk2⟩) := List.getElem?_eq_getElem hk2
  have hsucc : segs.take (k + 1) = segs.take k ++ [segs.get ⟨k, hk2⟩] := by
    rw [List.take_succ, hget]
    rfl
  have hne : segs.take k ≠ [] := by
    intro he
    have hl := congrArg List.length he
    rw [List.length_take, List.length_nil] at hl
    omega
  rw [hsucc, joinStrs_concat hne]
  show (joinStrs (segs.take k)).data.length <
    ((joinStrs (segs.take k)).data ++ '/' :: (segs.get ⟨k, hk2⟩).data).length
  rw [List.length_append, List.length_cons]
  omega

theorem joinStrs_take_mono {segs : List String} {a b : Nat}
    (ha : 1 ≤ a) (hab : a ≤ b) (hb : b ≤ segs.length) :
    (joinStrs (segs.take a)).length ≤ (joinStrs (segs.take b)).length := by
  revert hb
  induction b, hab using Nat.le_induction with
  | base => intro _; exact le_refl _
  | succ k hk ih =>
    intro hb
    have h1 : (joinStrs (segs.take a)).length ≤
        (joinStrs (segs.take k)).length := ih (by omega)
    have h2 : (joinStrs (segs.take k)).length <
        (joinStrs (segs.take (k + 1))).length :=
      joinStrs_take_lt (le_trans ha hk) (by omega)
    omega

theorem pathDepth_take {dp : String} {k : Nat} (hk1 : 1 ≤ k)
    (hk2 : k ≤ (goSplit dp).length) :
    pathDepth (joinStrs ((goSplit dp).take k)) = k := by
  unfold pathDepth
  rw [goSplit_joinStrs (take_goSplit_ne_nil hk1)
    (fun n hn => goSplit_sep_free n (List.mem_of_mem_take hn))]
  rw [List.length_take]
  omega

/-! ## The devices of a scan result against the devices map -/

theorem containsKey_iff {M : List (String × Device)} {k : String} :
    containsKey M k = true ↔ ∃ v, (k, v) ∈ M := by
  unfold containsKey
  rw [List.any_eq_true]
  constructor
  · rintro ⟨p, hp, hd⟩
    have hpk : p.1 = k := of_decide_eq_true hd
    refine ⟨p.2, ?_⟩
    rw [← hpk]
    exact hp
  · rintro ⟨v, hv⟩
    exact ⟨(k, v), hv, by simp⟩

theorem find_map_parent (present : String → Bool) (ch : String → List String) :
    ∀ (L : List (String × Device)), (∀ kv ∈ L, kv.2.Devpath = kv.1) →
      ∀ dp, (L.any fun p => decide (p.1 = dp)) = true →
      ∃ d, (L.map (fun kv => { kv.2 with
            Parent := findParent present kv.1
            Children := ch kv.1 })).find?
              (fun d => decide (d.Devpath = dp)) = some d ∧
        d.Devpath = dp ∧ d.Parent = findParent present dp ∧
        d.Children = ch dp := by
  intro L
  induction L with
  | nil => intro _ dp hany; simp at hany
  | cons kv t ih =>
    intro hgood dp hany
    have hkd : kv.2.Devpath = kv.1 := (hgood kv (List.mem_cons_self kv t))
    by_cases hk : kv.1 = dp
    · refine ⟨{ kv.2 with
          Parent := findParent present kv.1
          Children := ch kv.1 }, ?_, ?_, ?_, ?_⟩
      · rw [List.map_cons]
        apply List.find?_cons_of_pos
        show decide (({ kv.2 with
          Parent := findParent present kv.1
          Children := ch kv.1 } : Device).Devpath = dp) = true
        rw [show ({ kv.2 with
          Parent := findParent present kv.1
          Children := ch kv.1 } : Device).Devpath = kv.2.Devpath from rfl,
          hkd, hk]
        simp
      · show kv.2.Devpath = dp
        rw [hkd, hk]
      · show findParent present kv.1 = findParent present dp
        rw [hk]
      · show ch kv.1 = ch dp
        rw [hk]
    · have hany2 : (t.any fun p => decide (p.1 = dp)) = true := by
        rcases List.any_eq_true.mp hany with ⟨p, hp, hd⟩
        rcases List.mem_cons.mp hp with h1 | h1
        · exfalso
          apply hk
          rw [← h1]
          exact of_decide_eq_true hd
        · exact List.any_eq_true.mpr ⟨p, h1, hd⟩
      rcases ih (fun x hx => hgood x (List.mem_cons_of_mem kv hx)) dp hany2 with
        ⟨d, hfind, hdp, hpa, hch⟩
      refine ⟨d, ?_, hdp, hpa, hch⟩
      have hneg : ¬ decide (({ kv.2 with
          Parent := findParent present kv.1
          Children := ch kv.1 } : Device).Devpath = dp) = true := by
        simp only [decide_eq_true_eq]
        rw [show ({ kv.2 with
          Parent := findParent present kv.1
          Children := ch kv.1 } : Device).Devpath = kv.2.Devpath from rfl, hkd]
        exact hk
      rw [List.map_cons]
      have hstep := @List.find?_cons_of_neg Device
        (fun d => decide (d.Devpath = dp))
        ({ kv.2 with
          Parent := findParent present kv.1
          Children := ch kv.1 })
        (t.map (fun kv => { kv.2 with
          Parent := findParent present kv.1
          Children := ch kv.1 })) hneg
      rw [hstep]
      exact hfind

theorem devLookup_linkTree {M : List (String × Device)}
    (hg : ∀ kv ∈ M, goodPair kv) {dp : String}
    (hc : containsKey M dp = true) :
    ∃ d, devLookup (linkTree M) dp = some d ∧ d.Devpath = dp ∧
      d.Parent = findParent (containsKey M) dp ∧
      d.Children = childrenOf M dp := by
  unfold devLookup linkTree
  exact find_map_parent (containsKey M) (childrenOf M) M
    (fun kv h => (hg kv h).1) dp hc

theorem parentFun_linkTree {M : List (String × Device)}
    (hg : ∀ kv ∈ M, goodPair kv) {dp : String}
    (hc : containsKey M dp = true) :
    parentFun (linkTree M) dp = findParent (containsKey M) dp := by
  rcases devLookup_linkTree hg hc with ⟨d, hfind, _, hpa, _⟩
  unfold parentFun
  rw [hfind]
  exact hpa

theorem linkTree_mem_key {M : List (String × Device)}
    (hg : ∀ kv ∈ M, goodPair kv) {d : Device} (hd : d ∈ linkTree M) :
    containsKey M d.Devpath = true ∧
    d.Parent = findParent (containsKey M) d.Devpath := by
  rcases mem_linkTree hd with ⟨kv, hkv, he⟩
  have h1 : d.Devpath = kv.1 := by
    rw [he]
    exact (hg kv hkv).1
  constructor
  · rw [h1]
    refine containsKey_iff.mpr ⟨kv.2, ?_⟩
    rw [show ((kv.1, kv.2) : String × Device) = kv from rfl]
    exact hkv
  · rw [h1, he]

theorem mem_devpath_iff {M : List (String × Device)}
    (hg : ∀ kv ∈ M, goodPair kv) (q : String) :
    (∃ e ∈ linkTree M, e.Devpath = q) ↔ containsKey M q = true := by
  constructor
  · rintro ⟨e, he, heq⟩
    have h1 := (linkTree_mem_key hg he).1
    rw [heq] at h1
    exact h1
  · intro hc
    rcases devLookup_linkTree hg hc with ⟨d, hfind, hdp, _, _⟩
    refine ⟨d, ?_, hdp⟩
    unfold devLookup at hfind
    exact List.mem_of_find?_eq_some hfind

theorem stops_succ (f : String → Option String) (n : Nat) (dp : String) :
    stops f (n + 1) dp = match f dp with
      | none => true
      | some p => decide (p = dp) || stops f n p := by
  conv_lhs => unfold stops

/-! ## Claims C2 and C3: the linked tree -/

/-- C2: amended claim.  The relation is not a forest: a device whose
Devpath has a single segment is always its own Parent (a cycle of length
one), because stripping the suffix of the only segment is a no-op and the
device finds itself in the map.  What does hold: a device whose Devpath
contains a separator is never its own Parent, and following Parent from
any device reaches, within a number of steps bounded by the device's path
depth, either a device with no parent or a single segment device parented
to itself. -/
theorem parent_chain_terminates (root udev : FsEntry) (ds : List Device)
    (h : scanDevices root udev = .ok ds) :
    ∀ d ∈ ds,
      (('/' : Char) ∈ d.Devpath.data → d.Parent ≠ some d.Devpath) ∧
      (('/' : Char) ∉ d.Devpath.data → d.Parent = some d.Devpath) ∧
      stops (parentFun ds) (pathDepth d.Devpath) d.Devpath = true := by
  rcases scan_shape h with ⟨M, hw, hds⟩
  have hg : ∀ kv ∈ M, goodPair kv :=
    walk_good root [] "." [] M hw (by intro kv hkv; cases hkv)
  subst hds
  intro d hd
  rcases linkTree_mem_key hg hd with ⟨hck, hpa⟩
  refine ⟨?_, ?_, ?_⟩
  · intro hmem heq
    have hlen2 : 2 ≤ (goSplit d.Devpath).length := goSplit_multi_of_mem hmem
    rw [hpa, findParent_eq_specSearch] at heq
    rcases specSearch_found (containsKey M) hlen2 heq with ⟨k, hk1, hk2, hk3, _⟩
    have h1 : (joinStrs ((goSplit d.Devpath).take k)).length <
        (joinStrs ((goSplit d.Devpath).take (k + 1))).length :=
      joinStrs_take_lt hk1 hk2
    have h2 : (joinStrs ((goSplit d.Devpath).take (k + 1))).length ≤
        (joinStrs ((goSplit d.Devpath).take (goSplit d.Devpath).length)).length :=
      joinStrs_take_mono (by omega) (by omega) (le_refl _)
    rw [List.take_length, joinStrs_goSplit] at h2
    rw [← hk3] at h1
    omega
  · intro hmem
    rw [hpa, findParent_eq_specSearch, goSplit_single_of_not_mem hmem,
      specSearch_single, if_pos hck]
  · have key : ∀ n q, containsKey M q = true → pathDepth q ≤ n →
        stops (parentFun (linkTree M)) n q = true := by
      intro n
      induction n with
      | zero =>
        intro q _ hdep
        exfalso
        unfold pathDepth at hdep
        have := List.length_pos.mpr (goSplit_ne_nil q)
        omega
      | succ n ih =>
        intro q hq hdep
        have hpf : parentFun (linkTree M) q = findParent (containsKey M) q :=
          parentFun_linkTree hg hq
        rw [stops_succ, hpf]
        cases hfp : findParent (containsKey M) q with
        | none => rfl
        | some p =>
          show (decide (p = q) || stops (parentFun (linkTree M)) n p) = true
          rw [findParent_eq_specSearch] at hfp
          by_cases hone : (goSplit q).length = 1
          · obtain ⟨x, hx⟩ : ∃ x, goSplit q = [x] := by
              cases hgs : goSplit q with
              | nil => exact absurd hgs (goSplit_ne_nil q)
              | cons a t =>
                cases t with
                | nil => exact ⟨a, rfl⟩
                | cons b t2 => rw [hgs] at hone; simp at hone
            have hxq : x = q := by
              have hj := joinStrs_goSplit q
              rw [hx, joinStrs_single] at hj
              exact hj
            rw [hx, hxq, specSearch_single, if_pos hq] at hfp
            have hpq : p = q := (Option.some.inj hfp).symm
            rw [hpq]
            simp
          · have hlen2 : 2 ≤ (goSplit q).length := by
              have := List.length_pos.mpr (goSplit_ne_nil q)
              omega
            rcases specSearch_found (containsKey M) hlen2 hfp with
              ⟨k, hk1, hk2, hk3, _⟩
            have hcp : containsKey M p = true :=
              specSearch_present (containsKey M) hfp
            have hdp : pathDepth p ≤ n := by
              rw [hk3, pathDepth_take hk1 (le_of_lt hk2)]
              unfold pathDepth at hdep
              omega
            rw [ih p hcp hdp]
            simp
    exact key (pathDepth d.Devpath) d.Devpath hck (le_refl _)

/-- Witness for parent_chain_terminates at a concrete scan with a nested
device. -/
theorem parent_chain_terminates_witness :
    scanDevices fsNest udevEmpty = .ok [devNestA, devNestAB] ∧
    devNestAB.Parent ≠ some devNestAB.Devpath := by
  constructor
  · rfl
  · exact (parent_chain_terminates fsNest udevEmpty [devNestA, devNestAB] rfl
      devNestAB (by decide)).1 (by decide)

/-- C3: amended claim.  Restricted to devices whose Devpath contains a
separator, the stated nearest ancestor property holds: a set Parent is a
strict path prefix ancestor present in the result set and the longest
such ancestor; when Parent is unset no ancestor path of the device is
present in the result set.  For single segment paths the claim fails: the
device itself is always found and stored as Parent. -/
theorem nearest_ancestor_amended (root udev : FsEntry) (ds : List Device)
    (h : scanDevices root udev = .ok ds) :
    ∀ d ∈ ds, ('/' : Char) ∈ d.Devpath.data →
      (∀ p, d.Parent = some p →
        (∃ r, d.Devpath = p ++ "/" ++ r) ∧
        (∃ e ∈ ds, e.Devpath = p) ∧
        (∀ q r, d.Devpath = q ++ "/" ++ r → (∃ e ∈ ds, e.Devpath = q) →
          q.length ≤ p.length)) ∧
      (d.Parent = none →
        ∀ q r, d.Devpath = q ++ "/" ++ r → ¬ ∃ e ∈ ds, e.Devpath = q) := by
  rcases scan_shape h with ⟨M, hw, hds⟩
  have hg : ∀ kv ∈ M, goodPair kv :=
    walk_good root [] "." [] M hw (by intro kv hkv; cases hkv)
  subst hds
  intro d hd hmem
  rcases linkTree_mem_key hg hd with ⟨hck, hpa⟩
  have hlen2 : 2 ≤ (goSplit d.Devpath).length := goSplit_multi_of_mem hmem
  rw [findParent_eq_specSearch] at hpa
  constructor
  · intro p hp
    rw [hp] at hpa
    have hfp : specSearch (containsKey M) (goSplit d.Devpath) = some p :=
      hpa.symm
    rcases specSearch_found (containsKey M) hlen2 hfp with
      ⟨k, hk1, hk2, hk3, hmax⟩
    refine ⟨?_, ?_, ?_⟩
    · rw [hk3]
      exact ancestor_of_take hk1 hk2
    · exact (mem_devpath_iff hg p).mpr (specSearch_present (containsKey M) hfp)
    · intro q r hqr hqin
      rcases ancestor_align hqr with ⟨k2, hk21, hk22, hq2⟩
      have hcq : containsKey M q = true := (mem_devpath_iff hg q).mp hqin
      by_cases hkk : k < k2
      · exfalso
        have hfalse := hmax k2 hkk hk22
        rw [← hq2] at hfalse
        rw [hfalse] at hcq
        cases hcq
      · rw [hq2, hk3]
        exact joinStrs_take_mono hk21 (by omega) (le_of_lt hk2)
  · intro hnone
    rw [hnone] at hpa
    have hfp : specSearch (containsKey M) (goSplit d.Devpath) = none := hpa.symm
    intro q r hqr hqin
    rcases ancestor_align hqr with ⟨k2, hk21, hk22, hq2⟩
    have hcq : containsKey M q = true := (mem_devpath_iff hg q).mp hqin
    have hfalse := specSearch_none (containsKey M)
      (goSplit_ne_nil d.Devpath) hfp k2 hk21 hk22
    rw [← hq2] at hfalse
    rw [hfalse] at hcq
    cases hcq

/-- Witness for nearest_ancestor_amended at a concrete scan with a nested
device. -/
theorem nearest_ancestor_amended_witness :
    scanDevices fsNest udevEmpty = .ok [devNestA, devNestAB] ∧
    ∃ r, devNestAB.Devpath = "a" ++ "/" ++ r := by
  constructor
  · rfl
  · exact ((nearest_ancestor_amended fsNest udevEmpty [devNestA, devNestAB] rfl
      devNestAB (by decide) (by decide)).1 "a" (by decide)).1

end Libudev
